import Mathlib

/-!
Verification of the Prosody notation compiler.

This file gives a shallow embedding, in Lean 4, of the parts of the
Prosody source that the checked claims are about:

* `src/lib/parser.ts` — the token lexer (`tokenize`), note parsing
  (`parseNote`), the instrument-prefix resolver
  (`parseInstrumentPrefix`), the event compiler (`parseLine`) and the
  whole-composition entry point (`parseAllLines`).
* `src/lib/yaml-parser.ts` — the structured-song expander
  (`parseYamlSong`, `generateRests`, `expandSongOrder`,
  `getSectionBeats`, `isYamlFormat`, `tryParseYaml`).  The external
  YAML library itself is not re-implemented; the expander is modelled
  over the already-parsed document structure.
* `src/lib/audio.ts` — the guard of `renderOffline` and the
  mono-instrument deduplication inside `scheduleMusic`.

JavaScript numbers are embedded as `Rat` (all beat arithmetic in the
source is sums of 1 and 3/2, exact in floating point); JS strings as
`String`/`List Char`.  The TypeScript loops with a moving index are
embedded as fuel-based recursions over the token array with an explicit
index, so that every definition is executable and kernel-reducible; the
fuel supplied by the wrappers is proven irrelevant once it is at least
the number of remaining tokens.
-/

namespace Prosody

/-! ## Data model (`parser.ts` lines 1–45) -/

/-- `NoteToken` from `parser.ts`: a single parsed pitch. -/
structure NoteToken where
  raw : String
  note : String
  pitchClass : String
  octave : Nat
  dotted : Bool
  tied : Bool
  soft : Bool
deriving DecidableEq, Repr

/-- `Token` from `parser.ts`: the tagged union of a line's syntactic units. -/
inductive Token where
  | note (n : NoteToken)
  | rest (raw : String)
  | chord (raw : String) (notes : List NoteToken)
  | hit (raw : String)
  | invalid (raw : String)
deriving DecidableEq, Repr

/-- `NoteEvent` from `parser.ts`: the compiled output unit. -/
structure NoteEvent where
  notes : List String
  beat : Rat
  duration : Rat
  lineIndex : Nat
  tokenIndex : Nat
  soft : Bool
  instrument : String
deriving DecidableEq, Repr

/-- The keys of the `INSTRUMENTS` record in `parser.ts` (lines 48–55). -/
def instrumentNames : List String :=
  ["piano", "synth", "bass", "kick", "snare", "hihat"]

/-! ## Note parsing (`parseNote`, `NOTE_REGEX`)

`NOTE_REGEX` is `^([A-Ga-g])([#b]?)(\d)?(\.)?(~)?$`.  Because the five
character classes (letter, accidental, digit, dot, tilde) are pairwise
disjoint, the regex match is equivalent to the greedy one-pass match
implemented here: each optional group takes its character exactly when
it is next. -/

/-- The `[A-Ga-g]` class of `NOTE_REGEX`. -/
def isNoteLetter (c : Char) : Bool :=
  (decide ('A' ≤ c) && decide (c ≤ 'G')) || (decide ('a' ≤ c) && decide (c ≤ 'g'))

/-- JS `String.prototype.toLowerCase` restricted to one ASCII character
(the only case the source exercises: note letters and `\w` word
characters are ASCII). -/
def lowerChar (c : Char) : Char :=
  if 'A' ≤ c ∧ c ≤ 'Z' then Char.ofNat (c.toNat + 32) else c

/-- JS `String.prototype.toUpperCase` restricted to one ASCII character. -/
def upperChar (c : Char) : Char :=
  if 'a' ≤ c ∧ c ≤ 'z' then Char.ofNat (c.toNat - 32) else c

/-- Take one leading character of the given class, if present (one
optional regex group of `NOTE_REGEX`). -/
def takeOpt (p : Char → Bool) : List Char → Option Char × List Char
  | [] => (none, [])
  | c :: r => if p c then (some c, r) else (none, c :: r)

/-- The `pitchClass` of `parseNote`: `letter.toUpperCase() + accidental`. -/
def pitchClassOf (letter : Char) (accidental : Option Char) : String :=
  String.mk (upperChar letter :: (accidental.map (fun c => [c])).getD [])

/-- The `octave` of `parseNote`: `octaveStr ? parseInt(octaveStr, 10) : 4`. -/
def octaveOf : Option Char → Nat
  | some d => d.toNat - '0'.toNat
  | none => 4

/-- `parseNote` from `parser.ts` lines 76–95.  Returns `none` exactly
when `NOTE_REGEX` does not match. -/
def parseNote (raw : String) : Option NoteToken :=
  match raw.data with
  | [] => none
  | letter :: r1 =>
    if isNoteLetter letter then
      let pacc := takeOpt (fun c => c == '#' || c == 'b') r1
      let poct := takeOpt Char.isDigit pacc.2
      let pdot := takeOpt (· == '.') poct.2
      let ptie := takeOpt (· == '~') pdot.2
      if ptie.2 = [] then
        some
          { raw := raw
            note := pitchClassOf letter pacc.1 ++ toString (octaveOf poct.1)
            pitchClass := pitchClassOf letter pacc.1
            octave := octaveOf poct.1
            dotted := pdot.1.isSome
            tied := ptie.1.isSome
            soft := lowerChar letter == letter }
      else none
    else none

/-! ## The token lexer (`tokenize`, `parser.ts` lines 97–180) -/

/-- The raw-token reader of `tokenize` (lines 147–153): read until the
next space or `[`.  Returns the raw token and the remaining input. -/
def readRaw : List Char → List Char × List Char
  | [] => ([], [])
  | c :: cs =>
    if c = ' ' ∨ c = '[' then ([], c :: cs)
    else
      let p := readRaw cs
      (c :: p.1, p.2)

/-- `input.indexOf("]", i)` of the chord branch (line 112): split at the
first `]`, returning the interior and the remainder after it. -/
def splitClose : List Char → Option (List Char × List Char)
  | [] => none
  | c :: cs =>
    if c = ']' then some ([], cs)
    else (splitClose cs).map (fun p => (c :: p.1, p.2))

/-- `chordContent.split(/\s+/).filter(Boolean)` (line 123): whitespace-
separated words of the chord interior. -/
def wordsAux (acc : List Char) : List Char → List String
  | [] => if acc = [] then [] else [String.mk acc.reverse]
  | c :: cs =>
    if c.isWhitespace then
      if acc = [] then wordsAux [] cs else String.mk acc.reverse :: wordsAux [] cs
    else wordsAux (c :: acc) cs

/-- The words of a chord interior. -/
def wordsOf (cs : List Char) : List String := wordsAux [] cs

/-- The chord branch of `tokenize` (lines 121–141): parse every word of
the interior; a chord if all parse and there is at least one note,
otherwise an invalid token covering the bracketed span. -/
def chordToken (inside : List Char) : Token :=
  let chordRaw := String.mk ('[' :: (inside ++ [']']))
  match (wordsOf inside).mapM parseNote with
  | some ns => if ns.isEmpty then Token.invalid chordRaw else Token.chord chordRaw ns
  | none => Token.invalid chordRaw

/-- Classification of one raw token (lines 156–176): rest, hit, note or
invalid. -/
def classifyRaw (s : String) : Token :=
  if s = "-" ∨ s = "_" then Token.rest s
  else if s = "x" ∨ s = "X" then Token.hit s
  else
    match parseNote s with
    | some n => Token.note n
    | none => Token.invalid s

/-- The `while (i < input.length)` loop of `tokenize`, with fuel.  Each
iteration consumes at least one character, so fuel `cs.length` is
always enough (`tokenizeFuel_irrel`). -/
def tokenizeFuel : Nat → List Char → List Token
  | 0, _ => []
  | _, [] => []
  | fuel + 1, c :: cs =>
    if c = ' ' then tokenizeFuel fuel cs
    else if c = '[' then
      match splitClose cs with
      | none => [Token.invalid (String.mk ('[' :: cs))]
      | some (inside, after) => chordToken inside :: tokenizeFuel fuel after
    else
      let p := readRaw (c :: cs)
      classifyRaw (String.mk p.1) :: tokenizeFuel fuel p.2

/-- The lexer loop on a character list. -/
def tokenizeChars (cs : List Char) : List Token := tokenizeFuel cs.length cs

/-- `tokenize` from `parser.ts`.  The guard `if (!input.trim()) return []`
holds exactly when every character is whitespace. -/
def tokenize (input : String) : List Token :=
  if input.data.all Char.isWhitespace then [] else tokenizeChars input.data

/-! ## The instrument-prefix resolver (`parseInstrumentPrefix`, lines 60–74) -/

/-- The `\w` class of the prefix regex `^(\w+):\s*`. -/
def isWordChar (c : Char) : Bool := c.isAlpha || c.isDigit || c == '_'

/-- JS `toLowerCase` on a (ASCII) string. -/
def lowerStr (s : String) : String := String.mk (s.data.map lowerChar)

/-- `parseInstrumentPrefix` from `parser.ts`: the instrument, the
content with the prefix stripped, and the prefix length. -/
def parseInstrumentPrefix (line : String) : String × String × Nat :=
  let cs := line.data
  let name := cs.takeWhile isWordChar
  match cs.drop name.length with
  | ':' :: afterColon =>
    if name ≠ [] ∧ lowerStr (String.mk name) ∈ instrumentNames then
      let ws := afterColon.takeWhile Char.isWhitespace
      (lowerStr (String.mk name),
        String.mk (afterColon.drop ws.length),
        name.length + 1 + ws.length)
    else ("piano", line, 0)
  | _ => ("piano", line, 0)

/-! ## The event compiler (`parseLine`, lines 182–274) -/

/-- Base duration of a note: `dotted ? 1.5 : 1`. -/
def noteDur (dotted : Bool) : Rat := if dotted then 3 / 2 else 1

/-- Chord duration (lines 249–250): 1.5 if any member is dotted. -/
def chordDur (ns : List NoteToken) : Rat :=
  if ns.any (fun n => n.dotted) then 3 / 2 else 1

/-- The tie-folding look-ahead of `parseLine` (lines 218–231), applied
to the tokens after the current note.  Returns the extra duration
folded in and the number of tokens consumed.  A following token is
folded exactly when it is a note, is marked tied, and has the same
resolved pitch name as the note that started the chain. -/
def foldTies (base : String) : List Token → Rat × Nat
  | Token.note n :: rest =>
    if n.tied ∧ n.note = base then
      let p := foldTies base rest
      (noteDur n.dotted + p.1, p.2 + 1)
    else (0, 0)
  | _ => (0, 0)

/-- The `for` loop of `parseLine`, with the moving token index `i`, the
beat cursor `b`, and fuel.  Returns the emitted events and the final
value of the beat cursor.  Fuel `ts.length + 1 - i` is always enough
(`compileFuel_irrel`). -/
def compileFuel (lineIndex : Nat) (instrument : String) (ts : List Token) :
    Nat → Nat → Rat → List NoteEvent × Rat
  | 0, _, b => ([], b)
  | fuel + 1, i, b =>
    match ts[i]? with
    | none => ([], b)
    | some (Token.rest _) => compileFuel lineIndex instrument ts fuel (i + 1) (b + 1)
    | some (Token.invalid _) => compileFuel lineIndex instrument ts fuel (i + 1) (b + 1)
    | some (Token.hit _) =>
      let p := compileFuel lineIndex instrument ts fuel (i + 1) (b + 1)
      ({ notes := ["C4"], beat := b, duration := 1, lineIndex := lineIndex,
         tokenIndex := i, soft := false, instrument := instrument } :: p.1, p.2)
    | some (Token.note n) =>
      let f := foldTies n.note (ts.drop (i + 1))
      let duration := noteDur n.dotted + f.1
      let p := compileFuel lineIndex instrument ts fuel (i + 1 + f.2) (b + duration)
      ({ notes := [n.note], beat := b, duration := duration, lineIndex := lineIndex,
         tokenIndex := i, soft := n.soft, instrument := instrument } :: p.1, p.2)
    | some (Token.chord _ ns) =>
      let duration := chordDur ns
      let p := compileFuel lineIndex instrument ts fuel (i + 1) (b + duration)
      ({ notes := ns.map (fun n => n.note), beat := b, duration := duration,
         lineIndex := lineIndex, tokenIndex := i,
         soft := ns.any (fun n => n.soft), instrument := instrument } :: p.1, p.2)

/-- The event-compiler loop started at token index `i` with beat cursor
`b`, with sufficient fuel. -/
def compileFrom (lineIndex : Nat) (instrument : String) (ts : List Token)
    (i : Nat) (b : Rat) : List NoteEvent × Rat :=
  compileFuel lineIndex instrument ts (ts.length + 1 - i) i b

/-- One parsed line, as returned by `parseLine`. -/
structure Line where
  tokens : List Token
  events : List NoteEvent
  instrument : String
  prefixLength : Nat
deriving DecidableEq, Repr

/-- `parseLine` from `parser.ts`. -/
def parseLine (line : String) (lineIndex : Nat) : Line :=
  let p := parseInstrumentPrefix line
  let ts := tokenize p.2.1
  { tokens := ts
    events := (compileFrom lineIndex p.1 ts 0 0).1
    instrument := p.1
    prefixLength := p.2.2 }

/-- The final value of the beat cursor of `parseLine` (the local `beat`
variable after the loop; the source discards it, the claims are about
it). -/
def lineCursor (line : String) (lineIndex : Nat) : Rat :=
  let p := parseInstrumentPrefix line
  (compileFrom lineIndex p.1 (tokenize p.2.1) 0 0).2

/-! ## `parseAllLines` (lines 276–287) -/

/-- The per-line beat length used by `parseAllLines`: the last event's
beat plus its duration, or 0 when the line has no events. -/
def lineLen (l : Line) : Rat :=
  match l.events.getLast? with
  | none => 0
  | some e => e.beat + e.duration

/-- A compiled composition. -/
structure Composition where
  lines : List Line
  maxBeats : Rat
deriving DecidableEq, Repr

/-- `text.split("\n")` (JS semantics: empty pieces kept). -/
def splitNl (acc : List Char) : List Char → List String
  | [] => [String.mk acc.reverse]
  | c :: cs =>
    if c = '\n' then String.mk acc.reverse :: splitNl [] cs
    else splitNl (c :: acc) cs

/-- The lines of a text, as JS `split("\n")`. -/
def textLines (s : String) : List String := splitNl [] s.data

/-- `parseAllLines` from `parser.ts`: parse every line and take
`Math.max(0, ...beat lengths)`. -/
def parseAllLines (text : String) : Composition :=
  let lines := (textLines text).enum.map (fun p => parseLine p.2 p.1)
  { lines := lines
    maxBeats := (lines.map lineLen).foldl max 0 }

/-! ## Fuel irrelevance and step equations of the compiler loop -/

theorem compileFuel_irrel (li : Nat) (inst : String) (ts : List Token) :
    ∀ f1 f2 i b, ts.length ≤ i + f1 → ts.length ≤ i + f2 →
      compileFuel li inst ts f1 i b = compileFuel li inst ts f2 i b := by
  intro f1
  induction f1 with
  | zero =>
    intro f2 i b h1 _h2
    have hn : ts[i]? = none := List.getElem?_eq_none (by omega)
    cases f2 with
    | zero => rfl
    | succ k => simp [compileFuel, hn]
  | succ m ih =>
    intro f2 i b h1 h2
    cases f2 with
    | zero =>
      have hn : ts[i]? = none := List.getElem?_eq_none (by omega)
      simp [compileFuel, hn]
    | succ k =>
      simp only [compileFuel]
      cases hti : ts[i]? with
      | none => rfl
      | some t =>
        have hlt : i < ts.length := by
          by_contra hc
          rw [List.getElem?_eq_none (by omega)] at hti
          exact Option.noConfusion hti
        cases t with
        | rest r => exact ih k (i + 1) (b + 1) (by omega) (by omega)
        | invalid r => exact ih k (i + 1) (b + 1) (by omega) (by omega)
        | hit r => simp only [ih k (i + 1) (b + 1) (by omega) (by omega)]
        | note n =>
          simp only [ih k (i + 1 + (foldTies n.note (ts.drop (i + 1))).2)
            (b + (noteDur n.dotted + (foldTies n.note (ts.drop (i + 1))).1))
            (by omega) (by omega)]
        | chord r ns =>
          simp only [ih k (i + 1) (b + chordDur ns) (by omega) (by omega)]

theorem compileFrom_eq_fuel (li : Nat) (inst : String) (ts : List Token)
    (f i : Nat) (b : Rat) (h : ts.length ≤ i + f) :
    compileFrom li inst ts i b = compileFuel li inst ts f i b :=
  compileFuel_irrel li inst ts _ f i b (by omega) h

theorem compileFrom_none (li : Nat) (inst : String) (ts : List Token)
    (i : Nat) (b : Rat) (h : ts[i]? = none) :
    compileFrom li inst ts i b = ([], b) := by
  rw [compileFrom_eq_fuel li inst ts (ts.length + 1) i b (by omega)]
  simp [compileFuel, h]

theorem compileFrom_rest (li : Nat) (inst : String) (ts : List Token)
    (i : Nat) (b : Rat) (r : String) (h : ts[i]? = some (Token.rest r)) :
    compileFrom li inst ts i b = compileFrom li inst ts (i + 1) (b + 1) := by
  have hlt : i < ts.length := by
    by_contra hc
    rw [List.getElem?_eq_none (by omega)] at h
    exact Option.noConfusion h
  rw [compileFrom_eq_fuel li inst ts (ts.length + 1 - i) i b (by omega)]
  have hf : ts.length + 1 - i = (ts.length - i) + 1 := by omega
  rw [hf]
  simp only [compileFuel, h]
  exact (compileFrom_eq_fuel li inst ts (ts.length - i) (i + 1) (b + 1) (by omega)).symm

theorem compileFrom_invalid (li : Nat) (inst : String) (ts : List Token)
    (i : Nat) (b : Rat) (r : String) (h : ts[i]? = some (Token.invalid r)) :
    compileFrom li inst ts i b = compileFrom li inst ts (i + 1) (b + 1) := by
  have hlt : i < ts.length := by
    by_contra hc
    rw [List.getElem?_eq_none (by omega)] at h
    exact Option.noConfusion h
  rw [compileFrom_eq_fuel li inst ts (ts.length + 1 - i) i b (by omega)]
  have hf : ts.length + 1 - i = (ts.length - i) + 1 := by omega
  rw [hf]
  simp only [compileFuel, h]
  exact (compileFrom_eq_fuel li inst ts (ts.length - i) (i + 1) (b + 1) (by omega)).symm

theorem compileFrom_hit (li : Nat) (inst : String) (ts : List Token)
    (i : Nat) (b : Rat) (r : String) (h : ts[i]? = some (Token.hit r)) :
    compileFrom li inst ts i b =
      ({ notes := ["C4"], beat := b, duration := 1, lineIndex := li,
         tokenIndex := i, soft := false, instrument := inst } ::
          (compileFrom li inst ts (i + 1) (b + 1)).1,
        (compileFrom li inst ts (i + 1) (b + 1)).2) := by
  have hlt : i < ts.length := by
    by_contra hc
    rw [List.getElem?_eq_none (by omega)] at h
    exact Option.noConfusion h
  rw [compileFrom_eq_fuel li inst ts (ts.length + 1 - i) i b (by omega)]
  have hf : ts.length + 1 - i = (ts.length - i) + 1 := by omega
  rw [hf]
  simp only [compileFuel, h]
  rw [compileFrom_eq_fuel li inst ts (ts.length - i) (i + 1) (b + 1) (by omega)]

theorem compileFrom_note (li : Nat) (inst : String) (ts : List Token)
    (i : Nat) (b : Rat) (n : NoteToken) (h : ts[i]? = some (Token.note n)) :
    compileFrom li inst ts i b =
      ({ notes := [n.note], beat := b,
         duration := noteDur n.dotted + (foldTies n.note (ts.drop (i + 1))).1,
         lineIndex := li, tokenIndex := i, soft := n.soft, instrument := inst } ::
          (compileFrom li inst ts (i + 1 + (foldTies n.note (ts.drop (i + 1))).2)
            (b + (noteDur n.dotted + (foldTies n.note (ts.drop (i + 1))).1))).1,
        (compileFrom li inst ts (i + 1 + (foldTies n.note (ts.drop (i + 1))).2)
          (b + (noteDur n.dotted + (foldTies n.note (ts.drop (i + 1))).1))).2) := by
  have hlt : i < ts.length := by
    by_contra hc
    rw [List.getElem?_eq_none (by omega)] at h
    exact Option.noConfusion h
  rw [compileFrom_eq_fuel li inst ts (ts.length + 1 - i) i b (by omega)]
  have hf : ts.length + 1 - i = (ts.length - i) + 1 := by omega
  rw [hf]
  simp only [compileFuel, h]
  rw [compileFuel_irrel li inst ts (ts.length - i)
    (ts.length + 1 - (i + 1 + (foldTies n.note (ts.drop (i + 1))).2))
    (i + 1 + (foldTies n.note (ts.drop (i + 1))).2) _ (by omega) (by omega)]
  rfl

theorem compileFrom_chord (li : Nat) (inst : String) (ts : List Token)
    (i : Nat) (b : Rat) (r : String) (ns : List NoteToken)
    (h : ts[i]? = some (Token.chord r ns)) :
    compileFrom li inst ts i b =
      ({ notes := ns.map (fun n => n.note), beat := b, duration := chordDur ns,
         lineIndex := li, tokenIndex := i, soft := ns.any (fun n => n.soft),
         instrument := inst } ::
          (compileFrom li inst ts (i + 1) (b + chordDur ns)).1,
        (compileFrom li inst ts (i + 1) (b + chordDur ns)).2) := by
  have hlt : i < ts.length := by
    by_contra hc
    rw [List.getElem?_eq_none (by omega)] at h
    exact Option.noConfusion h
  rw [compileFrom_eq_fuel li inst ts (ts.length + 1 - i) i b (by omega)]
  have hf : ts.length + 1 - i = (ts.length - i) + 1 := by omega
  rw [hf]
  simp only [compileFuel, h]
  rw [compileFrom_eq_fuel li inst ts (ts.length - i) (i + 1) (b + chordDur ns) (by omega)]

/-! ## Basic list-access helpers -/

theorem lt_of_getElem?_some {α : Type} {l : List α} {i : Nat} {a : α}
    (h : l[i]? = some a) : i < l.length := by
  by_contra hc
  rw [List.getElem?_eq_none (by omega)] at h
  exact Option.noConfusion h

theorem drop_cons_of_getElem? {α : Type} {l : List α} {i : Nat} {a : α}
    (h : l[i]? = some a) : l.drop i = a :: l.drop (i + 1) := by
  have hlt : i < l.length := lt_of_getElem?_some h
  have hget : l[i] = a := by
    have := List.getElem?_eq_getElem hlt
    rw [h] at this
    exact (Option.some.injEq _ _).mp this.symm
  rw [List.drop_eq_getElem_cons hlt, hget]

/-! ## Per-token durations and the beat cursor

The beat cursor of the compiler loop advances by a fixed amount per
token — 1 for rests, hits and invalid tokens, the base duration for
notes (folded notes are counted inside the event that absorbs them but
advance the cursor by exactly their own base duration), and the chord
duration for chords — so the final cursor is the sum of the per-token
durations of the whole line. -/

/-- The beat-cursor contribution of one token. -/
def tokenDur : Token → Rat
  | Token.note n => noteDur n.dotted
  | Token.chord _ ns => chordDur ns
  | _ => 1

/-- Total cursor advance of a token list. -/
def sumDur (l : List Token) : Rat := (l.map tokenDur).sum

/-- Is the token a rest or an invalid token (the two kinds that advance
the cursor without emitting an event)? -/
def isRI : Token → Bool
  | Token.rest _ => true
  | Token.invalid _ => true
  | _ => false

theorem sumDur_nil : sumDur [] = 0 := rfl

theorem sumDur_cons (t : Token) (l : List Token) :
    sumDur (t :: l) = tokenDur t + sumDur l := by
  simp [sumDur]

theorem sumDur_append (l1 l2 : List Token) :
    sumDur (l1 ++ l2) = sumDur l1 + sumDur l2 := by
  simp [sumDur]

theorem noteDur_ge_one (d : Bool) : 1 ≤ noteDur d := by
  cases d <;> norm_num [noteDur]

theorem chordDur_ge_one (ns : List NoteToken) : 1 ≤ chordDur ns := by
  by_cases h : ns.any (fun n => n.dotted) <;> simp [chordDur, h] <;> norm_num

theorem tokenDur_ge_one (t : Token) : 1 ≤ tokenDur t := by
  cases t with
  | note n => exact noteDur_ge_one n.dotted
  | chord r ns => exact chordDur_ge_one ns
  | rest r => norm_num [tokenDur]
  | hit r => norm_num [tokenDur]
  | invalid r => norm_num [tokenDur]

/-! ## `foldTies` facts -/

theorem foldTies_snd_le (base : String) (l : List Token) :
    (foldTies base l).2 ≤ l.length := by
  induction l with
  | nil => simp [foldTies]
  | cons t rest ih =>
    cases t with
    | note n =>
      by_cases h : n.tied ∧ n.note = base
      · simp only [foldTies, if_pos h]
        simpa using Nat.succ_le_succ ih
      · simp [foldTies, if_neg h]
    | rest r => simp [foldTies]
    | chord r ns => simp [foldTies]
    | hit r => simp [foldTies]
    | invalid r => simp [foldTies]

theorem foldTies_consumed (base : String) (l : List Token) :
    ∀ m < (foldTies base l).2,
      ∃ n : NoteToken, l[m]? = some (Token.note n) ∧ n.tied ∧ n.note = base := by
  induction l with
  | nil => simp [foldTies]
  | cons t rest ih =>
    intro m hm
    cases t with
    | note n =>
      by_cases h : n.tied ∧ n.note = base
      · simp only [foldTies, if_pos h] at hm
        cases m with
        | zero => exact ⟨n, by simp, h⟩
        | succ m' =>
          obtain ⟨n', hn', hprop⟩ := ih m' (by omega)
          exact ⟨n', by simpa using hn', hprop⟩
      · simp [foldTies, if_neg h] at hm
    | rest r => simp [foldTies] at hm
    | chord r ns => simp [foldTies] at hm
    | hit r => simp [foldTies] at hm
    | invalid r => simp [foldTies] at hm

theorem foldTies_fst_eq_sumDur (base : String) (l : List Token) :
    (foldTies base l).1 = sumDur (l.take (foldTies base l).2) := by
  induction l with
  | nil => simp [foldTies, sumDur]
  | cons t rest ih =>
    cases t with
    | note n =>
      by_cases h : n.tied ∧ n.note = base
      · simp only [foldTies, if_pos h, List.take_succ_cons, sumDur_cons]
        rw [ih]
        simp [tokenDur]
      · simp [foldTies, if_neg h, sumDur]
    | rest r => simp [foldTies, sumDur]
    | chord r ns => simp [foldTies, sumDur]
    | hit r => simp [foldTies, sumDur]
    | invalid r => simp [foldTies, sumDur]

theorem foldTies_fst_nonneg (base : String) (l : List Token) :
    0 ≤ (foldTies base l).1 := by
  rw [foldTies_fst_eq_sumDur]
  induction (l.take (foldTies base l).2) with
  | nil => simp [sumDur]
  | cons t rest ih =>
    rw [sumDur_cons]
    have := tokenDur_ge_one t
    linarith

/-! ## The final cursor is the sum of all token durations -/

theorem compileFuel_snd (li : Nat) (inst : String) (ts : List Token) :
    ∀ f i b, ts.length ≤ i + f →
      (compileFuel li inst ts f i b).2 = b + sumDur (ts.drop i) := by
  intro f
  induction f with
  | zero =>
    intro i b h
    rw [List.drop_eq_nil_of_le (by omega)]
    simp [compileFuel, sumDur]
  | succ m ih =>
    intro i b h
    simp only [compileFuel]
    cases hti : ts[i]? with
    | none =>
      have hlen : ts.length ≤ i := by
        by_contra hc
        rw [List.getElem?_eq_getElem (by omega)] at hti
        exact Option.noConfusion hti
      rw [List.drop_eq_nil_of_le hlen]
      simp [sumDur]
    | some t =>
      have hlt : i < ts.length := lt_of_getElem?_some hti
      have hdrop : ts.drop i = t :: ts.drop (i + 1) := drop_cons_of_getElem? hti
      cases t with
      | rest r =>
        rw [ih (i + 1) (b + 1) (by omega), hdrop, sumDur_cons]
        simp [tokenDur]
        ring
      | invalid r =>
        rw [ih (i + 1) (b + 1) (by omega), hdrop, sumDur_cons]
        simp [tokenDur]
        ring
      | hit r =>
        simp only []
        rw [ih (i + 1) (b + 1) (by omega), hdrop, sumDur_cons]
        simp [tokenDur]
        ring
      | note n =>
        simp only []
        rw [ih (i + 1 + (foldTies n.note (ts.drop (i + 1))).2) _ (by
          have := foldTies_snd_le n.note (ts.drop (i + 1))
          rw [List.length_drop] at this
          omega)]
        rw [hdrop, sumDur_cons]
        have hsplit : sumDur (ts.drop (i + 1)) =
            sumDur ((ts.drop (i + 1)).take (foldTies n.note (ts.drop (i + 1))).2) +
              sumDur (ts.drop (i + 1 + (foldTies n.note (ts.drop (i + 1))).2)) := by
          conv_lhs => rw [← List.take_append_drop (foldTies n.note (ts.drop (i + 1))).2
            (ts.drop (i + 1))]
          rw [sumDur_append, List.drop_drop]
        rw [hsplit, ← foldTies_fst_eq_sumDur]
        simp [tokenDur]
        ring
      | chord r ns =>
        simp only []
        rw [ih (i + 1) (b + chordDur ns) (by omega), hdrop, sumDur_cons]
        simp [tokenDur]
        ring

/-- The final beat cursor of the whole loop, from the start of the
line, is the sum of all token durations. -/
theorem compileFrom_snd (li : Nat) (inst : String) (ts : List Token) (b : Rat) :
    (compileFrom li inst ts 0 b).2 = b + sumDur ts := by
  have := compileFuel_snd li inst ts (ts.length + 1 - 0) 0 b (by omega)
  rw [compileFrom, this]
  simp

/-! ## What each event says about the token that produced it -/

/-- The relation between an emitted event and the token at its
`tokenIndex`: hits carry the fixed placeholder pitch `"C4"`, duration 1
and `soft = false`; notes carry their single pitch and softness; chords
carry their member pitches.  Rests and invalid tokens never produce an
event. -/
def matchShape (t : Token) (e : NoteEvent) : Prop :=
  match t with
  | Token.hit _ => e.notes = ["C4"] ∧ e.duration = 1 ∧ e.soft = false
  | Token.note n => e.notes = [n.note] ∧ e.soft = n.soft
  | Token.chord _ ns =>
    e.notes = ns.map (fun x => x.note) ∧ e.duration = chordDur ns ∧
      e.soft = ns.any (fun x => x.soft)
  | Token.rest _ => False
  | Token.invalid _ => False

theorem compileFuel_mem (li : Nat) (inst : String) (ts : List Token) :
    ∀ f i b e, ts.length ≤ i + f →
      e ∈ (compileFuel li inst ts f i b).1 →
      i ≤ e.tokenIndex ∧ b ≤ e.beat ∧ 1 ≤ e.duration ∧ e.lineIndex = li ∧
        e.instrument = inst ∧
        ∃ t, ts[e.tokenIndex]? = some t ∧ matchShape t e := by
  intro f
  induction f with
  | zero => intro i b e _h hmem; simp [compileFuel] at hmem
  | succ m ih =>
    intro i b e h hmem
    simp only [compileFuel] at hmem
    cases hti : ts[i]? with
    | none => rw [hti] at hmem; simp at hmem
    | some t =>
      have hlt : i < ts.length := lt_of_getElem?_some hti
      rw [hti] at hmem
      cases t with
      | rest r =>
        obtain ⟨h1, h2, h3, h4, h5, h6⟩ := ih (i + 1) (b + 1) e (by omega) hmem
        exact ⟨by omega, by linarith, h3, h4, h5, h6⟩
      | invalid r =>
        obtain ⟨h1, h2, h3, h4, h5, h6⟩ := ih (i + 1) (b + 1) e (by omega) hmem
        exact ⟨by omega, by linarith, h3, h4, h5, h6⟩
      | hit r =>
        simp only [List.mem_cons] at hmem
        cases hmem with
        | inl he =>
          subst he
          exact ⟨le_refl i, le_refl b, by norm_num, rfl, rfl, ⟨Token.hit r, hti, rfl, rfl, rfl⟩⟩
        | inr hmem =>
          obtain ⟨h1, h2, h3, h4, h5, h6⟩ := ih (i + 1) (b + 1) e (by omega) hmem
          exact ⟨by omega, by linarith, h3, h4, h5, h6⟩
      | note n =>
        simp only [List.mem_cons] at hmem
        have hkle : (foldTies n.note (ts.drop (i + 1))).2 ≤ ts.length - (i + 1) := by
          have := foldTies_snd_le n.note (ts.drop (i + 1))
          rwa [List.length_drop] at this
        have hdur : 1 ≤ noteDur n.dotted + (foldTies n.note (ts.drop (i + 1))).1 := by
          have := noteDur_ge_one n.dotted
          have := foldTies_fst_nonneg n.note (ts.drop (i + 1))
          linarith
        cases hmem with
        | inl he =>
          subst he
          exact ⟨le_refl i, le_refl b, hdur, rfl, rfl, ⟨Token.note n, hti, rfl, rfl⟩⟩
        | inr hmem =>
          obtain ⟨h1, h2, h3, h4, h5, h6⟩ :=
            ih (i + 1 + (foldTies n.note (ts.drop (i + 1))).2)
              (b + (noteDur n.dotted + (foldTies n.note (ts.drop (i + 1))).1)) e
              (by omega) hmem
          exact ⟨by omega, by linarith, h3, h4, h5, h6⟩
      | chord r ns =>
        simp only [List.mem_cons] at hmem
        have hdur : 1 ≤ chordDur ns := chordDur_ge_one ns
        cases hmem with
        | inl he =>
          subst he
          exact ⟨le_refl i, le_refl b, hdur, rfl, rfl, ⟨Token.chord r ns, hti, rfl, rfl, rfl⟩⟩
        | inr hmem =>
          obtain ⟨h1, h2, h3, h4, h5, h6⟩ := ih (i + 1) (b + chordDur ns) e (by omega) hmem
          exact ⟨by omega, by linarith, h3, h4, h5, h6⟩

/-- The first event after starting at index `i`: the tokens before it
are exactly rests and invalid tokens, each advancing the cursor by 1,
so its beat is `b` plus the number of skipped tokens. -/
theorem compileFuel_head (li : Nat) (inst : String) (ts : List Token) :
    ∀ f i b e, ts.length ≤ i + f →
      (compileFuel li inst ts f i b).1.head? = some e →
      i ≤ e.tokenIndex ∧ e.tokenIndex < ts.length ∧
        e.beat = b + ((e.tokenIndex - i : ℕ) : ℚ) ∧
        ∀ m, i ≤ m → m < e.tokenIndex → ∃ t, ts[m]? = some t ∧ isRI t = true := by
  intro f
  induction f with
  | zero => intro i b e _h hhd; simp [compileFuel] at hhd
  | succ mf ih =>
    intro i b e h hhd
    simp only [compileFuel] at hhd
    cases hti : ts[i]? with
    | none => rw [hti] at hhd; simp at hhd
    | some t =>
      have hlt : i < ts.length := lt_of_getElem?_some hti
      rw [hti] at hhd
      cases t with
      | rest r =>
        obtain ⟨h1, h2, h3, h4⟩ := ih (i + 1) (b + 1) e (by omega) hhd
        refine ⟨by omega, h2, ?_, ?_⟩
        · have harith : e.tokenIndex - i = (e.tokenIndex - (i + 1)) + 1 := by omega
          rw [h3, harith]
          push_cast
          ring
        · intro m hm1 hm2
          rcases Nat.eq_or_lt_of_le hm1 with he | hgt
          · exact ⟨Token.rest r, he ▸ hti, rfl⟩
          · exact h4 m (by omega) hm2
      | invalid r =>
        obtain ⟨h1, h2, h3, h4⟩ := ih (i + 1) (b + 1) e (by omega) hhd
        refine ⟨by omega, h2, ?_, ?_⟩
        · have harith : e.tokenIndex - i = (e.tokenIndex - (i + 1)) + 1 := by omega
          rw [h3, harith]
          push_cast
          ring
        · intro m hm1 hm2
          rcases Nat.eq_or_lt_of_le hm1 with he | hgt
          · exact ⟨Token.invalid r, he ▸ hti, rfl⟩
          · exact h4 m (by omega) hm2
      | hit r =>
        simp only [List.head?_cons, Option.some.injEq] at hhd
        subst hhd
        exact ⟨le_refl i, hlt, by simp, fun m hm1 hm2 => absurd hm1 (Nat.not_le.mpr (hm2 : m < i))⟩
      | note n =>
        simp only [List.head?_cons, Option.some.injEq] at hhd
        subst hhd
        exact ⟨le_refl i, hlt, by simp, fun m hm1 hm2 => absurd hm1 (Nat.not_le.mpr (hm2 : m < i))⟩
      | chord r ns =>
        simp only [List.head?_cons, Option.some.injEq] at hhd
        subst hhd
        exact ⟨le_refl i, hlt, by simp, fun m hm1 hm2 => absurd hm1 (Nat.not_le.mpr (hm2 : m < i))⟩

/-- The loop emits no event exactly when every remaining token is a
rest or an invalid token. -/
theorem compileFuel_nil_iff (li : Nat) (inst : String) (ts : List Token) :
    ∀ f i b, ts.length ≤ i + f →
      ((compileFuel li inst ts f i b).1 = [] ↔ ∀ t ∈ ts.drop i, isRI t = true) := by
  intro f
  induction f with
  | zero =>
    intro i b h
    rw [List.drop_eq_nil_of_le (by omega)]
    simp [compileFuel]
  | succ m ih =>
    intro i b h
    simp only [compileFuel]
    cases hti : ts[i]? with
    | none =>
      have hlen : ts.length ≤ i := by
        by_contra hc
        rw [List.getElem?_eq_getElem (by omega)] at hti
        exact Option.noConfusion hti
      rw [List.drop_eq_nil_of_le hlen]
      simp
    | some t =>
      have hdrop : ts.drop i = t :: ts.drop (i + 1) := drop_cons_of_getElem? hti
      cases t with
      | rest r => rw [ih (i + 1) (b + 1) (by omega), hdrop]; simp [isRI]
      | invalid r => rw [ih (i + 1) (b + 1) (by omega), hdrop]; simp [isRI]
      | hit r => rw [hdrop]; simp [isRI]
      | note n => rw [hdrop]; simp [isRI]
      | chord r ns => rw [hdrop]; simp [isRI]

/-! ## Adjacent events: ordering, gaps and contiguity -/

theorem take_drop_mem_getElem {α : Type} {l : List α} {j q : Nat} {a : α}
    (h : a ∈ (l.drop j).take q) : ∃ m, m < q ∧ l[j + m]? = some a := by
  obtain ⟨m, hm⟩ := List.mem_iff_getElem?.mp h
  have hmq : m < q := by
    by_contra hc
    rw [List.getElem?_take, if_neg hc] at hm
    exact Option.noConfusion hm
  rw [List.getElem?_take, if_pos hmq, List.getElem?_drop] at hm
  exact ⟨m, hmq, hm⟩

/-- The rest/invalid tokens lying strictly between token positions `p`
and `q` of a line. -/
def riCount (ts : List Token) (p q : Nat) : Nat :=
  ((ts.drop (p + 1)).take (q - p - 1)).countP isRI

/-- The relation between two adjacent compiled events of one line: the
later one starts later in the token list, and its beat is exactly the
earlier one's end plus one beat per rest/invalid token lying between
their tokens.  In particular the gap is zero when the originating
tokens are contiguous. -/
def evGap (ts : List Token) (a c : NoteEvent) : Prop :=
  a.tokenIndex < c.tokenIndex ∧
    c.beat = a.beat + a.duration + (riCount ts a.tokenIndex c.tokenIndex : ℚ)

theorem compileFuel_chain (li : Nat) (inst : String) (ts : List Token) :
    ∀ f i b, ts.length ≤ i + f →
      List.Chain' (evGap ts) (compileFuel li inst ts f i b).1 := by
  intro f
  induction f with
  | zero => intro i b _h; simp [compileFuel]
  | succ m ih =>
    intro i b h
    simp only [compileFuel]
    cases hti : ts[i]? with
    | none => simp
    | some t =>
      have hlt : i < ts.length := lt_of_getElem?_some hti
      cases t with
      | rest r => exact ih (i + 1) (b + 1) (by omega)
      | invalid r => exact ih (i + 1) (b + 1) (by omega)
      | hit r =>
        rw [List.chain'_cons']
        refine ⟨?_, ih (i + 1) (b + 1) (by omega)⟩
        intro c hc
        obtain ⟨h1, h2, h3, h4⟩ :=
          compileFuel_head li inst ts m (i + 1) (b + 1) c (by omega)
            (Option.mem_def.mp hc)
        have hall : ∀ t' ∈ (ts.drop (i + 1)).take (c.tokenIndex - i - 1),
            isRI t' = true := by
          intro t' ht'
          obtain ⟨mm, hmm, hget⟩ := take_drop_mem_getElem ht'
          obtain ⟨t2, hget2, hri⟩ := h4 (i + 1 + mm) (by omega) (by omega)
          rw [hget2] at hget
          exact (Option.some.injEq _ _).mp hget ▸ hri
        have hcnt : ((ts.drop (i + 1)).take (c.tokenIndex - i - 1)).countP isRI =
            c.tokenIndex - i - 1 := by
          rw [List.countP_eq_length.mpr hall, List.length_take, List.length_drop]
          exact min_eq_left (by omega)
        refine ⟨show i < c.tokenIndex by omega, ?_⟩
        show c.beat = b + 1 + ((riCount ts i c.tokenIndex : ℕ) : ℚ)
        rw [riCount, hcnt, h3]
        have harith : c.tokenIndex - (i + 1) = c.tokenIndex - i - 1 := by omega
        rw [harith]
      | chord r ns =>
        rw [List.chain'_cons']
        refine ⟨?_, ih (i + 1) (b + chordDur ns) (by omega)⟩
        intro c hc
        obtain ⟨h1, h2, h3, h4⟩ :=
          compileFuel_head li inst ts m (i + 1) (b + chordDur ns) c (by omega)
            (Option.mem_def.mp hc)
        have hall : ∀ t' ∈ (ts.drop (i + 1)).take (c.tokenIndex - i - 1),
            isRI t' = true := by
          intro t' ht'
          obtain ⟨mm, hmm, hget⟩ := take_drop_mem_getElem ht'
          obtain ⟨t2, hget2, hri⟩ := h4 (i + 1 + mm) (by omega) (by omega)
          rw [hget2] at hget
          exact (Option.some.injEq _ _).mp hget ▸ hri
        have hcnt : ((ts.drop (i + 1)).take (c.tokenIndex - i - 1)).countP isRI =
            c.tokenIndex - i - 1 := by
          rw [List.countP_eq_length.mpr hall, List.length_take, List.length_drop]
          exact min_eq_left (by omega)
        refine ⟨show i < c.tokenIndex by omega, ?_⟩
        show c.beat = b + chordDur ns + ((riCount ts i c.tokenIndex : ℕ) : ℚ)
        rw [riCount, hcnt, h3]
        have harith : c.tokenIndex - (i + 1) = c.tokenIndex - i - 1 := by omega
        rw [harith]
      | note n =>
        rw [List.chain'_cons']
        have hkle : (foldTies n.note (ts.drop (i + 1))).2 ≤ ts.length - (i + 1) := by
          have := foldTies_snd_le n.note (ts.drop (i + 1))
          rwa [List.length_drop] at this
        refine ⟨?_, ih (i + 1 + (foldTies n.note (ts.drop (i + 1))).2)
          (b + (noteDur n.dotted + (foldTies n.note (ts.drop (i + 1))).1))
          (by omega)⟩
        intro c hc
        set k := (foldTies n.note (ts.drop (i + 1))).2 with hk
        obtain ⟨h1, h2, h3, h4⟩ :=
          compileFuel_head li inst ts m (i + 1 + k)
            (b + (noteDur n.dotted + (foldTies n.note (ts.drop (i + 1))).1)) c
            (by omega) (Option.mem_def.mp hc)
        have hsplitn : c.tokenIndex - i - 1 = k + (c.tokenIndex - i - 1 - k) := by omega
        have hsplit : (ts.drop (i + 1)).take (c.tokenIndex - i - 1) =
            (ts.drop (i + 1)).take k ++
              (ts.drop (i + 1 + k)).take (c.tokenIndex - i - 1 - k) := by
          rw [hsplitn, List.take_add, List.drop_drop]
          have h5 : k + (c.tokenIndex - i - 1 - k) - k = c.tokenIndex - i - 1 - k := by
            omega
          rw [h5]
        have hcnt1 : ((ts.drop (i + 1)).take k).countP isRI = 0 := by
          rw [List.countP_eq_zero]
          intro a ha
          obtain ⟨mm, hmm, hget⟩ := take_drop_mem_getElem ha
          obtain ⟨n2, hn2, _, _⟩ := foldTies_consumed n.note (ts.drop (i + 1)) mm (hk ▸ hmm)
          rw [List.getElem?_drop] at hn2
          rw [hn2] at hget
          have : a = Token.note n2 := ((Option.some.injEq _ _).mp hget).symm
          rw [this]
          simp [isRI]
        have hall : ∀ t' ∈ (ts.drop (i + 1 + k)).take (c.tokenIndex - i - 1 - k),
            isRI t' = true := by
          intro t' ht'
          obtain ⟨mm, hmm, hget⟩ := take_drop_mem_getElem ht'
          obtain ⟨t2, hget2, hri⟩ := h4 (i + 1 + k + mm) (by omega) (by omega)
          rw [hget2] at hget
          exact (Option.some.injEq _ _).mp hget ▸ hri
        have hcnt2 : ((ts.drop (i + 1 + k)).take (c.tokenIndex - i - 1 - k)).countP isRI =
            c.tokenIndex - i - 1 - k := by
          rw [List.countP_eq_length.mpr hall, List.length_take, List.length_drop]
          exact min_eq_left (by omega)
        have hcnt : ((ts.drop (i + 1)).take (c.tokenIndex - i - 1)).countP isRI =
            c.tokenIndex - i - 1 - k := by
          rw [hsplit, List.countP_append, hcnt1, hcnt2]
          omega
        refine ⟨show i < c.tokenIndex by omega, ?_⟩
        show c.beat = b + (noteDur n.dotted + (foldTies n.note (ts.drop (i + 1))).1) +
          ((riCount ts i c.tokenIndex : ℕ) : ℚ)
        rw [riCount, hcnt, h3]
        have harith : c.tokenIndex - (i + 1 + k) = c.tokenIndex - i - 1 - k := by omega
        rw [harith]

/-- `evGap` holds along the event list of every compiled line. -/
theorem parseLine_chain (line : String) (lineIndex : Nat) :
    List.Chain' (evGap (parseLine line lineIndex).tokens)
      (parseLine line lineIndex).events := by
  have := compileFuel_chain lineIndex (parseInstrumentPrefix line).1
    (tokenize (parseInstrumentPrefix line).2.1)
    ((tokenize (parseInstrumentPrefix line).2.1).length + 1) 0 0 (by omega)
  simpa [parseLine, compileFrom] using this

/-! ## The cursor versus the recorded line length

`parseAllLines` measures a line by its last event's end, while the
cursor also advances over trailing rests and invalid tokens.  The two
differ by exactly the length of the maximal all-rest/invalid suffix of
the token list. -/

/-- The end of the last event, or `b` when there is none. -/
def lastEnd (b : Rat) (evs : List NoteEvent) : Rat :=
  match evs.getLast? with
  | none => b
  | some e => e.beat + e.duration

/-- The length of the maximal suffix of the token list consisting only
of rests and invalid tokens. -/
def tailRI : List Token → Nat
  | [] => 0
  | t :: ts => if isRI t = true ∧ tailRI ts = ts.length then ts.length + 1 else tailRI ts

theorem tailRI_le (l : List Token) : tailRI l ≤ l.length := by
  induction l with
  | nil => simp [tailRI]
  | cons t ts ih =>
    rw [tailRI]
    split
    · simp
    · simp only [List.length_cons]
      omega

theorem tailRI_eq_length_iff (l : List Token) :
    tailRI l = l.length ↔ ∀ t ∈ l, isRI t = true := by
  induction l with
  | nil => simp [tailRI]
  | cons t ts ih =>
    rw [tailRI]
    split
    case isTrue hcond =>
      simp only [List.length_cons, List.mem_cons]
      constructor
      · intro _ a ha
        rcases ha with rfl | ha
        · exact hcond.1
        · exact (ih.mp hcond.2) a ha
      · intro _; trivial
    case isFalse hcond =>
      have hle := tailRI_le ts
      simp only [List.length_cons, List.mem_cons]
      constructor
      · intro hx
        omega
      · intro hall
        exfalso
        exact hcond ⟨hall t (Or.inl rfl), ih.mpr (fun a ha => hall a (Or.inr ha))⟩

theorem tailRI_cons_not {t : Token} (ts : List Token) (h : isRI t = false) :
    tailRI (t :: ts) = tailRI ts := by
  rw [tailRI]
  split
  case isTrue hcond => rw [h] at hcond; exact absurd hcond.1 (by simp)
  case isFalse => rfl

theorem lastEnd_cons_ne {evs : List NoteEvent} (e : NoteEvent) (b b' : Rat)
    (h : evs ≠ []) : lastEnd b (e :: evs) = lastEnd b' evs := by
  cases evs with
  | nil => exact absurd rfl h
  | cons e2 evs2 =>
    obtain ⟨x, hx⟩ := Option.isSome_iff_exists.mp
      (List.getLast?_isSome.mpr (by simp : (e2 :: evs2) ≠ []))
    simp only [lastEnd, List.getLast?_cons_cons, hx]

theorem lastEnd_indep {evs : List NoteEvent} (b b' : Rat) (h : evs ≠ []) :
    lastEnd b evs = lastEnd b' evs := by
  obtain ⟨x, hx⟩ := Option.isSome_iff_exists.mp (List.getLast?_isSome.mpr h)
  simp only [lastEnd, hx]

/-- Skipping a span of tokens that are not rests/invalid does not
change the trailing rest/invalid count. -/
theorem tailRI_drop_skip (ts : List Token) :
    ∀ d i, i + d ≤ ts.length →
      (∀ m, i ≤ m → m < i + d → ∃ t, ts[m]? = some t ∧ isRI t = false) →
      tailRI (ts.drop i) = tailRI (ts.drop (i + d)) := by
  intro d
  induction d with
  | zero => intro i _ _; rfl
  | succ d' ih =>
    intro i hle hnot
    obtain ⟨t, hget, hri⟩ := hnot i (le_refl i) (by omega)
    rw [drop_cons_of_getElem? hget, tailRI_cons_not _ hri]
    have : i + (d' + 1) = (i + 1) + d' := by omega
    rw [this] at hle ⊢
    exact ih (i + 1) hle (fun m hm1 hm2 => hnot m (by omega) (by omega))

theorem compileFuel_cursor (li : Nat) (inst : String) (ts : List Token) :
    ∀ f i b, ts.length ≤ i + f →
      (compileFuel li inst ts f i b).2 =
        lastEnd b (compileFuel li inst ts f i b).1 + (tailRI (ts.drop i) : ℚ) := by
  intro f
  induction f with
  | zero =>
    intro i b h
    rw [List.drop_eq_nil_of_le (by omega)]
    simp [compileFuel, lastEnd, tailRI]
  | succ m ih =>
    intro i b h
    simp only [compileFuel]
    cases hti : ts[i]? with
    | none =>
      have hlen : ts.length ≤ i := by
        by_contra hc
        rw [List.getElem?_eq_getElem (by omega)] at hti
        exact Option.noConfusion hti
      rw [List.drop_eq_nil_of_le hlen]
      simp [lastEnd, tailRI]
    | some t =>
      have hlt : i < ts.length := lt_of_getElem?_some hti
      have hdrop : ts.drop i = t :: ts.drop (i + 1) := drop_cons_of_getElem? hti
      cases t with
      | rest r =>
        rw [ih (i + 1) (b + 1) (by omega), hdrop]
        by_cases h0 : (compileFuel li inst ts m (i + 1) (b + 1)).1 = []
        · have hall := (compileFuel_nil_iff li inst ts m (i + 1) (b + 1) (by omega)).mp h0
          have hlen2 : tailRI (ts.drop (i + 1)) = (ts.drop (i + 1)).length :=
            (tailRI_eq_length_iff _).mpr hall
          rw [h0]
          rw [tailRI]
          rw [if_pos ⟨rfl, hlen2⟩]
          simp only [lastEnd, List.getLast?_nil]
          rw [hlen2]
          push_cast
          ring
        · rw [lastEnd_indep (b + 1) b h0]
          have hne : tailRI (ts.drop (i + 1)) ≠ (ts.drop (i + 1)).length := by
            intro hx
            exact h0 ((compileFuel_nil_iff li inst ts m (i + 1) (b + 1) (by omega)).mpr
              ((tailRI_eq_length_iff _).mp hx))
          rw [tailRI, if_neg (fun hco => hne hco.2)]
      | invalid r =>
        rw [ih (i + 1) (b + 1) (by omega), hdrop]
        by_cases h0 : (compileFuel li inst ts m (i + 1) (b + 1)).1 = []
        · have hall := (compileFuel_nil_iff li inst ts m (i + 1) (b + 1) (by omega)).mp h0
          have hlen2 : tailRI (ts.drop (i + 1)) = (ts.drop (i + 1)).length :=
            (tailRI_eq_length_iff _).mpr hall
          rw [h0]
          rw [tailRI]
          rw [if_pos ⟨rfl, hlen2⟩]
          simp only [lastEnd, List.getLast?_nil]
          rw [hlen2]
          push_cast
          ring
        · rw [lastEnd_indep (b + 1) b h0]
          have hne : tailRI (ts.drop (i + 1)) ≠ (ts.drop (i + 1)).length := by
            intro hx
            exact h0 ((compileFuel_nil_iff li inst ts m (i + 1) (b + 1) (by omega)).mpr
              ((tailRI_eq_length_iff _).mp hx))
          rw [tailRI, if_neg (fun hco => hne hco.2)]
      | hit r =>
        simp only []
        rw [ih (i + 1) (b + 1) (by omega), hdrop, tailRI_cons_not _ (by simp [isRI])]
        by_cases h0 : (compileFuel li inst ts m (i + 1) (b + 1)).1 = []
        · rw [h0]
          simp [lastEnd]
        · rw [lastEnd_indep (b + 1) b h0, lastEnd_cons_ne _ b b h0]
      | note n =>
        simp only []
        have hkle : (foldTies n.note (ts.drop (i + 1))).2 ≤ ts.length - (i + 1) := by
          have := foldTies_snd_le n.note (ts.drop (i + 1))
          rwa [List.length_drop] at this
        set k := (foldTies n.note (ts.drop (i + 1))).2 with hk
        set dur := noteDur n.dotted + (foldTies n.note (ts.drop (i + 1))).1 with hdur
        rw [ih (i + 1 + k) (b + dur) (by omega)]
        have hskip : tailRI (ts.drop i) = tailRI (ts.drop (i + 1 + k)) := by
          have := tailRI_drop_skip ts (1 + k) i (by omega) (fun mm hm1 hm2 => by
            rcases Nat.eq_or_lt_of_le hm1 with rfl | hgt
            · exact ⟨Token.note n, hti, by simp [isRI]⟩
            · obtain ⟨n2, hn2, _, _⟩ :=
                foldTies_consumed n.note (ts.drop (i + 1)) (mm - i - 1) (by omega)
              rw [List.getElem?_drop] at hn2
              have : i + 1 + (mm - i - 1) = mm := by omega
              rw [this] at hn2
              exact ⟨Token.note n2, hn2, by simp [isRI]⟩)
          have harr : i + (1 + k) = i + 1 + k := by omega
          rwa [harr] at this
        rw [hskip]
        by_cases h0 : (compileFuel li inst ts m (i + 1 + k) (b + dur)).1 = []
        · rw [h0]
          simp [lastEnd]
        · rw [lastEnd_indep (b + dur) b h0, lastEnd_cons_ne _ b b h0]
      | chord r ns =>
        simp only []
        rw [ih (i + 1) (b + chordDur ns) (by omega), hdrop,
          tailRI_cons_not _ (by simp [isRI])]
        by_cases h0 : (compileFuel li inst ts m (i + 1) (b + chordDur ns)).1 = []
        · rw [h0]
          simp [lastEnd]
        · rw [lastEnd_indep (b + chordDur ns) b h0, lastEnd_cons_ne _ b b h0]

theorem chain'_and_forall {α : Type} {R : α → α → Prop} {P : α → Prop} :
    ∀ {l : List α}, List.Chain' R l → (∀ a ∈ l, P a) →
      List.Chain' (fun a c => R a c ∧ P a ∧ P c) l := by
  intro l
  induction l with
  | nil => intro _ _; simp
  | cons x xs ih =>
    intro hch hall
    rw [List.chain'_cons'] at hch ⊢
    refine ⟨fun y hy => ⟨hch.1 y hy, hall x (by simp), hall y
      (List.mem_cons_of_mem x (List.mem_of_mem_head? hy))⟩,
      ih hch.2 (fun a ha => hall a (List.mem_cons_of_mem x ha))⟩

theorem parseLine_mem (line : String) (lineIndex : Nat) (e : NoteEvent)
    (h : e ∈ (parseLine line lineIndex).events) :
    e.beat ≥ 0 ∧ 1 ≤ e.duration ∧ e.lineIndex = lineIndex ∧
      e.instrument = (parseLine line lineIndex).instrument ∧
      ∃ t, (parseLine line lineIndex).tokens[e.tokenIndex]? = some t ∧ matchShape t e := by
  have hm := compileFuel_mem lineIndex (parseInstrumentPrefix line).1
    (tokenize (parseInstrumentPrefix line).2.1)
    ((tokenize (parseInstrumentPrefix line).2.1).length + 1) 0 0 e (by omega)
    (by simpa [parseLine, compileFrom] using h)
  obtain ⟨_, h2, h3, h4, h5, h6⟩ := hm
  exact ⟨h2, h3, h4, h5, by simpa [parseLine] using h6⟩

theorem lineLen_eq_lastEnd (l : Line) : lineLen l = lastEnd 0 l.events := by
  cases hg : l.events.getLast? <;> simp [lineLen, lastEnd, hg]

/-! ## Toggling a tie marker

The compiler never reads a note token's own `tied` flag when emitting
that token's event; the flag is only consulted by the look-ahead of a
*preceding* same-pitch note.  So toggling the flag of a note that is
not immediately preceded by a same-pitch note changes nothing. -/

/-- A copy of a note token with its tie marker toggled. -/
def toggleTied (n : NoteToken) : NoteToken := { n with tied := !n.tied }

theorem compileFuel_agree (li : Nat) (inst : String) :
    ∀ f (ts1 ts2 : List Token) j b, ts1.length = ts2.length →
      (∀ m, j ≤ m → ts1[m]? = ts2[m]?) →
      compileFuel li inst ts1 f j b = compileFuel li inst ts2 f j b := by
  intro f
  induction f with
  | zero => intro ts1 ts2 j b _ _; rfl
  | succ m ih =>
    intro ts1 ts2 j b hlen hagree
    have hdrop : ts1.drop (j + 1) = ts2.drop (j + 1) := by
      apply List.ext_getElem?
      intro k
      rw [List.getElem?_drop, List.getElem?_drop]
      exact hagree (j + 1 + k) (by omega)
    simp only [compileFuel]
    rw [hagree j (le_refl j)]
    cases hti : ts2[j]? with
    | none => rfl
    | some t =>
      cases t with
      | rest r => exact ih ts1 ts2 (j + 1) (b + 1) hlen (fun m hm => hagree m (by omega))
      | invalid r => exact ih ts1 ts2 (j + 1) (b + 1) hlen (fun m hm => hagree m (by omega))
      | hit r =>
        dsimp only
        rw [ih ts1 ts2 (j + 1) (b + 1) hlen (fun m hm => hagree m (by omega))]
      | note n =>
        dsimp only
        rw [hdrop,
          ih ts1 ts2 (j + 1 + (foldTies n.note (ts2.drop (j + 1))).2) _ hlen
            (fun m hm => hagree m (by omega))]
      | chord r ns =>
        dsimp only
        rw [ih ts1 ts2 (j + 1) (b + chordDur ns) hlen (fun m hm => hagree m (by omega))]

theorem foldTies_set (base : String) :
    ∀ (l : List Token) (q : Nat) (n n' : NoteToken),
      l[q]? = some (Token.note n) → n'.note = n.note →
      (q = 0 → base ≠ n.note) →
      (∀ nm, 1 ≤ q → l[q - 1]? = some (Token.note nm) → nm.note ≠ n.note) →
      foldTies base (l.set q (Token.note n')) = foldTies base l := by
  intro l
  induction l with
  | nil => intro q n n' hq; simp at hq
  | cons t rest ih =>
    intro q n n' hq hnn h0 hpred
    cases q with
    | zero =>
      have ht : t = Token.note n := by simpa using hq
      subst ht
      have hbase : ¬(n'.tied ∧ n'.note = base) := by
        intro hco
        exact (h0 rfl) (hnn ▸ hco.2).symm
      have hbase2 : ¬(n.tied ∧ n.note = base) := by
        intro hco
        exact (h0 rfl) hco.2.symm
      simp only [List.set]
      rw [foldTies, foldTies, if_neg hbase, if_neg hbase2]
    | succ q' =>
      have hq' : rest[q']? = some (Token.note n) := by simpa using hq
      simp only [List.set]
      cases t with
      | note mh =>
        by_cases hco : mh.tied ∧ mh.note = base
        · have hrec : foldTies base (rest.set q' (Token.note n')) = foldTies base rest := by
            apply ih q' n n' hq' hnn
            · intro hz
              subst hz
              have : (Token.note mh :: rest)[0]? = some (Token.note mh) := by simp
              have hne := hpred mh (by omega) (by simpa using this)
              rw [← hco.2]
              exact hne
            · intro nm h1 hgetp
              have : (Token.note mh :: rest)[q' - 1 + 1]? = some (Token.note nm) := by
                simpa using hgetp
              have hx := hpred nm (by omega) (by
                have harith : q' + 1 - 1 = q' - 1 + 1 := by omega
                rw [harith]
                exact this)
              exact hx
          rw [foldTies, foldTies, if_pos hco, if_pos hco, hrec]
        · rw [foldTies, foldTies, if_neg hco, if_neg hco]
      | rest r => rfl
      | chord r ns => rfl
      | hit r => rfl
      | invalid r => rfl

theorem compileFuel_toggle (li : Nat) (inst : String) (ts : List Token) (i : Nat)
    (n n' : NoteToken) (hget : ts[i]? = some (Token.note n))
    (hnn : n'.note = n.note) (hdot : n'.dotted = n.dotted) (hsoft : n'.soft = n.soft)
    (hpred : ∀ nm, 1 ≤ i → ts[i - 1]? = some (Token.note nm) → nm.note ≠ n.note) :
    ∀ f j b, ts.length ≤ j + f →
      compileFuel li inst (ts.set i (Token.note n')) f j b =
        compileFuel li inst ts f j b := by
  have hilt : i < ts.length := lt_of_getElem?_some hget
  intro f
  induction f with
  | zero => intro j b _; rfl
  | succ m ih =>
    intro j b hsuff
    rcases lt_trichotomy j i with hji | hji | hji
    · -- j < i : the heads agree; the look-ahead cannot cross the toggled
      -- position because its predecessor breaks any same-pitch chain.
      simp only [compileFuel]
      rw [List.getElem?_set_ne (by omega)]
      cases hti : ts[j]? with
      | none => rfl
      | some t =>
        cases t with
        | rest r => exact ih (j + 1) (b + 1) (by omega)
        | invalid r => exact ih (j + 1) (b + 1) (by omega)
        | hit r =>
          dsimp only
          rw [ih (j + 1) (b + 1) (by omega)]
        | chord r ns =>
          dsimp only
          rw [ih (j + 1) (b + chordDur ns) (by omega)]
        | note mh =>
          have hdropset : (ts.set i (Token.note n')).drop (j + 1) =
              (ts.drop (j + 1)).set (i - (j + 1)) (Token.note n') := by
            rw [List.drop_set, if_neg (by omega)]
          have hfold : foldTies mh.note ((ts.set i (Token.note n')).drop (j + 1)) =
              foldTies mh.note (ts.drop (j + 1)) := by
            rw [hdropset]
            apply foldTies_set mh.note (ts.drop (j + 1)) (i - (j + 1)) n n'
            · rw [List.getElem?_drop]
              have : j + 1 + (i - (j + 1)) = i := by omega
              rw [this]
              exact hget
            · exact hnn
            · intro hz
              have hij : i = j + 1 := by omega
              have hj : ts[i - 1]? = some (Token.note mh) := by
                have : i - 1 = j := by omega
                rw [this]
                exact hti
              exact fun hx => (hpred mh (by omega) hj) (hx ▸ rfl)
            · intro nm h1 hgetp
              rw [List.getElem?_drop] at hgetp
              have : j + 1 + (i - (j + 1) - 1) = i - 1 := by omega
              rw [this] at hgetp
              exact hpred nm (by omega) hgetp
          dsimp only
          rw [hfold, ih (j + 1 + (foldTies mh.note (ts.drop (j + 1))).2) _ (by omega)]
    · -- j = i : the toggled token's own flag is never read.
      subst hji
      simp only [compileFuel]
      rw [List.getElem?_set_eq hilt, hget]
      dsimp only
      have hdropset : (ts.set j (Token.note n')).drop (j + 1) = ts.drop (j + 1) := by
        rw [List.drop_set, if_pos (by omega)]
      rw [hdropset, hnn, hdot, hsoft]
      rw [compileFuel_agree li inst m (ts.set j (Token.note n')) ts
        (j + 1 + (foldTies n.note (ts.drop (j + 1))).2) _ (by rw [List.length_set])
        (fun mm hmm => List.getElem?_set_ne (by omega))]
    · -- j > i : the loop never looks at positions before `j`.
      exact compileFuel_agree li inst (m + 1) (ts.set i (Token.note n')) ts j b
        (by rw [List.length_set]) (fun mm hmm => List.getElem?_set_ne (by omega))

/-! ## Claim theorems -/

/-- C1: the spec says `"C4~ ~ E4"` compiles to two events
`{notes:["C4"], beat:0, duration:3}` and `{notes:["E4"], beat:3,
duration:1}` — and the repository's own `REFERENCE.md` documents
`C4~ ~ ~` as a three-beat hold — but in `parser.ts` a bare `~` fails
`NOTE_REGEX` (which requires a leading letter) and lexes as an
`Invalid` token, so the tie chain is broken: the code produces
`{notes:["C4"], beat:0, duration:1}` and `{notes:["E4"], beat:2,
duration:1}`.  This theorem evaluates the code at the failing input. -/
theorem claim1_bare_tie_is_invalid_token :
    (parseLine "C4~ ~ E4" 0).events =
      [{ notes := ["C4"], beat := 0, duration := 1, lineIndex := 0, tokenIndex := 0,
         soft := false, instrument := "piano" },
       { notes := ["E4"], beat := 2, duration := 1, lineIndex := 0, tokenIndex := 2,
         soft := false, instrument := "piano" }] ∧
    (parseLine "C4~ ~ E4" 0).tokens[1]? = some (Token.invalid "~") := by
  have hp : parseInstrumentPrefix "C4~ ~ E4" = ("piano", "C4~ ~ E4", 0) := by decide
  have ht : tokenize "C4~ ~ E4" =
      [Token.note { raw := "C4~", note := "C4", pitchClass := "C", octave := 4, dotted := false, tied := true, soft := false },
       Token.invalid "~",
       Token.note { raw := "E4", note := "E4", pitchClass := "E", octave := 4, dotted := false, tied := false, soft := false }] := by
    decide
  constructor
  · simp only [parseLine, hp, ht]
    norm_num [compileFrom, compileFuel, foldTies, noteDur]
  · simp only [parseLine, hp, ht]
    decide

/-- C3 counterexample: for the line `"-"` the final beat cursor is 1
(the rest advances it), but the beat length used for `maxBeats` is 0
(no event was produced), so the cursor does not equal the line's beat
length for every line. -/
theorem claim3_counterexample :
    lineCursor "-" 0 = 1 ∧ lineLen (parseLine "-" 0) = 0 := by
  have hp : parseInstrumentPrefix "-" = ("piano", "-", 0) := by decide
  have ht : tokenize "-" = [Token.rest "-"] := by decide
  constructor
  · simp only [lineCursor, hp, ht]
    norm_num [compileFrom, compileFuel]
  · simp only [parseLine, hp, ht, lineLen]
    norm_num [compileFrom, compileFuel]

/-- C3 (amended): for every line, the final beat cursor equals the
line's beat length (last event's beat plus duration, or 0 with no
events) **plus one beat for each token of the maximal all-rest/invalid
suffix of the token list**; in particular the two agree exactly when
the line does not end in rests or invalid tokens. -/
theorem claim3_cursor_eq_length_plus_trailing (line : String) (lineIndex : Nat) :
    lineCursor line lineIndex =
      lineLen (parseLine line lineIndex) +
        (tailRI (parseLine line lineIndex).tokens : ℚ) := by
  have h := compileFuel_cursor lineIndex (parseInstrumentPrefix line).1
    (tokenize (parseInstrumentPrefix line).2.1)
    ((tokenize (parseInstrumentPrefix line).2.1).length + 1) 0 0 (by omega)
  rw [List.drop_zero] at h
  rw [lineCursor, compileFrom]
  simp only [Nat.sub_zero]
  rw [h, lineLen_eq_lastEnd]
  congr 1

/-- C4: within one line the compiled events are strictly increasing in
beat; adjacent events satisfy `beat + duration ≤ next.beat`, with
equality when the originating tokens are contiguous (no rest or
invalid token strictly between them); and a rest or invalid token
advances the beat cursor by exactly 1 without emitting an event. -/
theorem claim4_event_ordering_and_gaps :
    (∀ (line : String) (lineIndex : Nat),
      List.Chain' (fun a c => a.beat < c.beat) (parseLine line lineIndex).events ∧
      List.Chain' (fun a c => a.beat + a.duration ≤ c.beat)
        (parseLine line lineIndex).events ∧
      List.Chain' (fun a c =>
          (∀ t ∈ ((parseLine line lineIndex).tokens.drop (a.tokenIndex + 1)).take
              (c.tokenIndex - a.tokenIndex - 1), isRI t = false) →
          a.beat + a.duration = c.beat)
        (parseLine line lineIndex).events) ∧
    (∀ (li : Nat) (inst : String) (ts : List Token) (i : Nat) (b : Rat) (r : String),
      ts[i]? = some (Token.rest r) →
      compileFrom li inst ts i b = compileFrom li inst ts (i + 1) (b + 1)) ∧
    (∀ (li : Nat) (inst : String) (ts : List Token) (i : Nat) (b : Rat) (r : String),
      ts[i]? = some (Token.invalid r) →
      compileFrom li inst ts i b = compileFrom li inst ts (i + 1) (b + 1)) := by
  refine ⟨?_, compileFrom_rest, compileFrom_invalid⟩
  intro line lineIndex
  have hch := parseLine_chain line lineIndex
  have hdur : ∀ e ∈ (parseLine line lineIndex).events, 1 ≤ e.duration :=
    fun e he => (parseLine_mem line lineIndex e he).2.1
  have hco := chain'_and_forall hch hdur
  refine ⟨?_, ?_, ?_⟩
  · refine hco.imp ?_
    intro a c hx
    obtain ⟨⟨_, heq⟩, hda, _⟩ := hx
    have : (0 : ℚ) ≤ (riCount (parseLine line lineIndex).tokens a.tokenIndex c.tokenIndex : ℚ) :=
      Nat.cast_nonneg _
    rw [heq]
    linarith
  · refine hco.imp ?_
    intro a c hx
    obtain ⟨⟨_, heq⟩, hda, _⟩ := hx
    have : (0 : ℚ) ≤ (riCount (parseLine line lineIndex).tokens a.tokenIndex c.tokenIndex : ℚ) :=
      Nat.cast_nonneg _
    rw [heq]
    linarith
  · refine hch.imp ?_
    intro a c hx hcont
    obtain ⟨_, heq⟩ := hx
    have hz : riCount (parseLine line lineIndex).tokens a.tokenIndex c.tokenIndex = 0 := by
      rw [riCount, List.countP_eq_zero]
      intro t ht
      simp [hcont t ht]
    rw [heq, hz]
    simp

/-- C4 witness: the rest-step equation discharged at a concrete token
list, plus the ordering conclusions at a concrete line. -/
theorem claim4_witness :
    compileFrom 0 "piano" [Token.rest "-"] 0 0 =
      compileFrom 0 "piano" [Token.rest "-"] 1 1 ∧
    List.Chain' (fun a c => a.beat < c.beat) (parseLine "C4 - E4" 0).events := by
  constructor
  · have := claim4_event_ordering_and_gaps.2.1 0 "piano" [Token.rest "-"] 0 0 "-" (by decide)
    simpa using this
  · exact (claim4_event_ordering_and_gaps.1 "C4 - E4" 0).1

/-- C9: every `Hit` token (lexed from `x` or `X`) compiles to an event
whose `notes` field is exactly `["C4"]` — a concrete placeholder
pitch — with duration 1 and `soft = false`, regardless of the letter
case of the hit. -/
theorem claim9_hit_events :
    (∀ (line : String) (lineIndex : Nat) (e : NoteEvent) (r : String),
      e ∈ (parseLine line lineIndex).events →
      (parseLine line lineIndex).tokens[e.tokenIndex]? = some (Token.hit r) →
      e.notes = ["C4"] ∧ e.duration = 1 ∧ e.soft = false) ∧
    tokenize "x" = [Token.hit "x"] ∧ tokenize "X" = [Token.hit "X"] := by
  refine ⟨?_, rfl, rfl⟩
  intro line lineIndex e r hmem hget
  obtain ⟨_, _, _, _, t, hget2, hshape⟩ := parseLine_mem line lineIndex e hmem
  rw [hget] at hget2
  have ht : t = Token.hit r := ((Option.some.injEq _ _).mp hget2).symm
  rw [ht] at hshape
  exact hshape

/-- C9 witness: the hit-event conclusion discharged at the line `"X"`. -/
theorem claim9_witness :
    ({ notes := ["C4"], beat := 0, duration := 1, lineIndex := 0, tokenIndex := 0,
       soft := false, instrument := "piano" } : NoteEvent) ∈ (parseLine "X" 0).events ∧
    ({ notes := ["C4"], beat := 0, duration := 1, lineIndex := 0, tokenIndex := 0,
       soft := false, instrument := "piano" } : NoteEvent).notes = ["C4"] ∧
    ({ notes := ["C4"], beat := 0, duration := 1, lineIndex := 0, tokenIndex := 0,
       soft := false, instrument := "piano" } : NoteEvent).duration = 1 ∧
    ({ notes := ["C4"], beat := 0, duration := 1, lineIndex := 0, tokenIndex := 0,
       soft := false, instrument := "piano" } : NoteEvent).soft = false := by
  refine ⟨by decide, ?_⟩
  exact claim9_hit_events.1 "X" 0 _ "X" (by decide) (by decide)

/-- C10 (amended): toggling the tie flag of a note token that is not
immediately **preceded** by a note token of the same resolved pitch
name leaves the compiled output unchanged — the compiler reads a tie
marker only through the look-ahead from a preceding same-pitch note,
never on the token's own event; in particular `"C4~ E4"` compiles to
exactly the same events as `"C4 E4"`.  (The claim's original condition,
on the *following* token, is refuted by `claim10_counterexample`.) -/
theorem claim10_tie_toggle_invariant :
    (∀ (li : Nat) (inst : String) (ts : List Token) (i : Nat) (n : NoteToken),
      ts[i]? = some (Token.note n) →
      (∀ nm, 1 ≤ i → ts[i - 1]? = some (Token.note nm) → nm.note ≠ n.note) →
      compileFrom li inst (ts.set i (Token.note (toggleTied n))) 0 0 =
        compileFrom li inst ts 0 0) ∧
    (parseLine "C4~ E4" 0).events = (parseLine "C4 E4" 0).events := by
  constructor
  · intro li inst ts i n hget hpred
    rw [compileFrom, compileFrom, List.length_set]
    exact compileFuel_toggle li inst ts i n (toggleTied n) hget rfl rfl rfl hpred
      (ts.length + 1 - 0) 0 0 (by omega)
  · have hp1 : parseInstrumentPrefix "C4~ E4" = ("piano", "C4~ E4", 0) := by decide
    have ht1 : tokenize "C4~ E4" =
        [Token.note { raw := "C4~", note := "C4", pitchClass := "C", octave := 4, dotted := false, tied := true, soft := false },
         Token.note { raw := "E4", note := "E4", pitchClass := "E", octave := 4, dotted := false, tied := false, soft := false }] := by
      decide
    have hp2 : parseInstrumentPrefix "C4 E4" = ("piano", "C4 E4", 0) := by decide
    have ht2 : tokenize "C4 E4" =
        [Token.note { raw := "C4", note := "C4", pitchClass := "C", octave := 4, dotted := false, tied := false, soft := false },
         Token.note { raw := "E4", note := "E4", pitchClass := "E", octave := 4, dotted := false, tied := false, soft := false }] := by
      decide
    simp only [parseLine, hp1, ht1, hp2, ht2]
    norm_num [compileFrom, compileFuel, foldTies, noteDur]

/-- C10 witness: toggling the tie marker of the first token of
`"C4~ E4"` (a note with no predecessor) leaves the compiled output
unchanged. -/
theorem claim10_witness :
    (tokenize "C4~ E4")[0]? =
      some (Token.note { raw := "C4~", note := "C4", pitchClass := "C", octave := 4, dotted := false, tied := true, soft := false }) ∧
    compileFrom 0 "piano" ((tokenize "C4~ E4").set 0
        (Token.note (toggleTied { raw := "C4~", note := "C4", pitchClass := "C", octave := 4, dotted := false, tied := true, soft := false }))) 0 0 =
      compileFrom 0 "piano" (tokenize "C4~ E4") 0 0 :=
  ⟨by decide,
    claim10_tie_toggle_invariant.1 0 "piano" (tokenize "C4~ E4") 0
      { raw := "C4~", note := "C4", pitchClass := "C", octave := 4, dotted := false, tied := true, soft := false }
      (by decide) (fun nm h1 => absurd h1 (by omega))⟩

/-- C10 counterexample: in `"C4 C4~"` the tied token at index 1 is
followed by nothing at all (so it trivially is not followed by a tied
note of the same pitch), yet toggling its tie flag changes the
compiled events: tied, the line folds into one two-beat event;
untied, it compiles to two one-beat events. -/
theorem claim10_counterexample :
    (parseLine "C4 C4~" 0).tokens.length = 2 ∧
    (parseLine "C4 C4~" 0).tokens[1]? =
      some (Token.note { raw := "C4~", note := "C4", pitchClass := "C", octave := 4, dotted := false, tied := true, soft := false }) ∧
    (compileFrom 0 "piano" ((parseLine "C4 C4~" 0).tokens.set 1
        (Token.note (toggleTied { raw := "C4~", note := "C4", pitchClass := "C", octave := 4, dotted := false, tied := true, soft := false }))) 0 0).1 ≠
      (parseLine "C4 C4~" 0).events := by
  have hp : parseInstrumentPrefix "C4 C4~" = ("piano", "C4 C4~", 0) := by decide
  have ht : tokenize "C4 C4~" =
      [Token.note { raw := "C4", note := "C4", pitchClass := "C", octave := 4, dotted := false, tied := false, soft := false },
       Token.note { raw := "C4~", note := "C4", pitchClass := "C", octave := 4, dotted := false, tied := true, soft := false }] := by
    decide
  refine ⟨by simp [parseLine, hp, ht], by simp [parseLine, hp, ht], ?_⟩
  have hL : (compileFrom 0 "piano" ((parseLine "C4 C4~" 0).tokens.set 1
      (Token.note (toggleTied { raw := "C4~", note := "C4", pitchClass := "C", octave := 4, dotted := false, tied := true, soft := false }))) 0 0).1 =
      [{ notes := ["C4"], beat := 0, duration := 1, lineIndex := 0, tokenIndex := 0, soft := false, instrument := "piano" },
       { notes := ["C4"], beat := 1, duration := 1, lineIndex := 0, tokenIndex := 1, soft := false, instrument := "piano" }] := by
    simp only [parseLine, hp, ht]
    norm_num [compileFrom, compileFuel, foldTies, noteDur, toggleTied, List.set]
  have hR : (parseLine "C4 C4~" 0).events =
      [{ notes := ["C4"], beat := 0, duration := 2, lineIndex := 0, tokenIndex := 0, soft := false, instrument := "piano" }] := by
    simp only [parseLine, hp, ht]
    norm_num [compileFrom, compileFuel, foldTies, noteDur]
  rw [hL, hR]
  intro hcontra
  simp at hcontra

/-! ## The `renderOffline` guard (`audio.ts` lines 498–505)

`renderOffline` first compiles the text and throws
`new Error("Nothing to render")` when `maxBeats === 0`, before any
rendering work; the audio rendering itself (Tone.js) is outside the
embedding, so the guard is modelled as an `Except` value carrying the
compiled composition on success. -/

/-- The compile-and-check prefix of `renderOffline`. -/
def renderOfflineGuard (text : String) : Except String Composition :=
  let r := parseAllLines text
  if r.maxBeats = 0 then Except.error "Nothing to render" else Except.ok r

theorem foldl_max_le_init (l : List Rat) : ∀ a : Rat, a ≤ l.foldl max a := by
  induction l with
  | nil => intro a; exact le_refl a
  | cons x xs ih =>
    intro a
    calc a ≤ max a x := le_max_left a x
    _ ≤ xs.foldl max (max a x) := ih (max a x)

theorem mem_le_foldl_max (l : List Rat) : ∀ a : Rat, ∀ x ∈ l, x ≤ l.foldl max a := by
  induction l with
  | nil => intro a x hx; simp at hx
  | cons y ys ih =>
    intro a x hx
    rcases List.mem_cons.mp hx with rfl | hx2
    · calc x ≤ max a x := le_max_right a x
      _ ≤ ys.foldl max (max a x) := foldl_max_le_init ys (max a x)
    · exact ih (max a y) x hx2

theorem foldl_max_zero_iff (l : List Rat) (hpos : ∀ x ∈ l, 0 ≤ x) :
    l.foldl max 0 = 0 ↔ ∀ x ∈ l, x = 0 := by
  constructor
  · intro h x hx
    have h1 : x ≤ l.foldl max 0 := mem_le_foldl_max l 0 x hx
    have h2 : 0 ≤ x := hpos x hx
    rw [h] at h1
    linarith
  · intro hall
    induction l with
    | nil => rfl
    | cons y ys ih =>
      have hy : y = 0 := hall y (by simp)
      rw [List.foldl_cons, hy, max_self]
      exact ih (fun x hx => hpos x (by simp [hx])) (fun x hx => hall x (by simp [hx]))

theorem parseAllLines_mem (text : String) (l : Line)
    (h : l ∈ (parseAllLines text).lines) :
    ∃ line li, l = parseLine line li := by
  simp only [parseAllLines, List.mem_map] at h
  obtain ⟨p, _, hp⟩ := h
  exact ⟨p.2, p.1, hp.symm⟩

theorem lineLen_nonneg (line : String) (li : Nat) :
    0 ≤ lineLen (parseLine line li) := by
  cases hg : (parseLine line li).events.getLast? with
  | none => simp [lineLen, hg]
  | some e =>
    have hmem : e ∈ (parseLine line li).events := List.mem_of_getLast?_eq_some hg
    obtain ⟨hb, hd, _⟩ := parseLine_mem line li e hmem
    simp only [lineLen, hg]
    linarith

theorem lineLen_eq_zero_iff (line : String) (li : Nat) :
    lineLen (parseLine line li) = 0 ↔ (parseLine line li).events = [] := by
  cases hg : (parseLine line li).events.getLast? with
  | none =>
    simp only [lineLen, hg]
    exact ⟨fun _ => List.getLast?_eq_none.mp hg, fun _ => by trivial⟩
  | some e =>
    have hmem : e ∈ (parseLine line li).events := List.mem_of_getLast?_eq_some hg
    obtain ⟨hb, hd, _⟩ := parseLine_mem line li e hmem
    simp only [lineLen, hg]
    constructor
    · intro hz; linarith
    · intro hz; rw [hz] at hg; exact Option.noConfusion hg

/-- C6: `renderOffline` fails with the hard error `"Nothing to render"`
exactly when the compiled composition's `maxBeats` is 0, which happens
exactly when no line produced any event; the check precedes all
rendering work, and a composition with `maxBeats > 0` never takes this
branch. -/
theorem claim6_nothing_to_render (text : String) :
    (renderOfflineGuard text = Except.error "Nothing to render" ↔
      (parseAllLines text).maxBeats = 0) ∧
    ((parseAllLines text).maxBeats = 0 ↔
      ∀ l ∈ (parseAllLines text).lines, l.events = []) := by
  constructor
  · rw [renderOfflineGuard]
    by_cases h : (parseAllLines text).maxBeats = 0
    · simp [h]
    · simp [h]
  · have hpos : ∀ x ∈ (parseAllLines text).lines.map lineLen, 0 ≤ x := by
      intro x hx
      obtain ⟨l, hl, hlx⟩ := List.mem_map.mp hx
      obtain ⟨line, li, rfl⟩ := parseAllLines_mem text l hl
      rw [← hlx]
      exact lineLen_nonneg line li
    have hmax : (parseAllLines text).maxBeats =
        ((parseAllLines text).lines.map lineLen).foldl max 0 := rfl
    rw [hmax, foldl_max_zero_iff _ hpos]
    constructor
    · intro hall l hl
      obtain ⟨line, li, rfl⟩ := parseAllLines_mem text l hl
      exact (lineLen_eq_zero_iff line li).mp
        (hall (lineLen (parseLine line li)) (List.mem_map_of_mem lineLen hl))
    · intro hall x hx
      obtain ⟨l, hl, hlx⟩ := List.mem_map.mp hx
      obtain ⟨line, li, rfl⟩ := parseAllLines_mem text l hl
      rw [← hlx]
      exact (lineLen_eq_zero_iff line li).mpr (hall _ hl)

/-! ## The note grammar (C8) -/

/-- The note grammar, stated from the spec's words: letter `A`–`G`
case-insensitive, optional accidental `#`/`b`, optional single octave
digit, optional dot, optional tie, in that order and nothing else
(the language of `NOTE_REGEX`). -/
def noteGrammarSpec (s : String) : Prop :=
  ∃ (l : Char) (acc dig dot tie : List Char),
    s.data = l :: (acc ++ dig ++ dot ++ tie) ∧ isNoteLetter l = true ∧
    (acc = [] ∨ acc = ['#'] ∨ acc = ['b']) ∧
    (dig = [] ∨ ∃ d, dig = [d] ∧ d.isDigit = true) ∧
    (dot = [] ∨ dot = ['.']) ∧ (tie = [] ∨ tie = ['~'])

theorem takeOpt_cases (p : Char → Bool) (l : List Char) :
    ((takeOpt p l).1 = none ∧ (takeOpt p l).2 = l) ∨
      ∃ c, (takeOpt p l).1 = some c ∧ p c = true ∧ l = c :: (takeOpt p l).2 := by
  cases l with
  | nil => left; exact ⟨rfl, rfl⟩
  | cons c r =>
    by_cases hp : p c = true
    · right
      exact ⟨c, by simp [takeOpt, hp], hp, by simp [takeOpt, hp]⟩
    · left
      constructor <;> simp [takeOpt, hp]

theorem digit_not_accidental (d : Char) (h : d.isDigit = true) :
    (d == '#' || d == 'b') = false := by
  have h1 : d ≠ '#' := by rintro rfl; exact absurd h (by decide)
  have h2 : d ≠ 'b' := by rintro rfl; exact absurd h (by decide)
  simp [h1, h2]

theorem charToNat_ofNat (n : Nat) (h : n < 55296) : (Char.ofNat n).toNat = n := by
  unfold Char.ofNat
  split
  · rfl
  · rename_i hv
    exact absurd (Or.inl (by omega)) hv

theorem char_toNat_inj {c d : Char} (h : c.toNat = d.toNat) : c = d := by
  have := Char.ofNat_toNat c
  rw [h, Char.ofNat_toNat d] at this
  exact this.symm

theorem char_le_toNat {c d : Char} : c ≤ d ↔ c.toNat ≤ d.toNat := by
  rw [Char.le_def]
  exact Iff.rfl

/-- For the letters admitted by the grammar, `letter === letter.toLowerCase()`
holds exactly on the lowercase range. -/
theorem lowerChar_eq_self_iff (c : Char) (h : isNoteLetter c = true) :
    (lowerChar c == c) = true ↔ ('a' ≤ c ∧ c ≤ 'g') := by
  simp only [isNoteLetter, Bool.or_eq_true, Bool.and_eq_true, decide_eq_true_eq] at h
  rcases h with ⟨h1, h2⟩ | ⟨h1, h2⟩
  · -- uppercase range: toLowerCase changes the letter
    have hb1 : 65 ≤ c.toNat := char_le_toNat.mp h1
    have hb2 : c.toNat ≤ 71 := char_le_toNat.mp h2
    have hZ90 : ('Z' : Char).toNat = 90 := rfl
    have hcond : 'A' ≤ c ∧ c ≤ 'Z' := ⟨h1, char_le_toNat.mpr (by omega)⟩
    have hlc : lowerChar c = Char.ofNat (c.toNat + 32) := by rw [lowerChar, if_pos hcond]
    have hne : lowerChar c ≠ c := by
      intro hx
      have : (lowerChar c).toNat = c.toNat := by rw [hx]
      rw [hlc, charToNat_ofNat (c.toNat + 32) (by omega)] at this
      omega
    constructor
    · intro hx
      exact absurd (by simpa using hx) hne
    · intro hx
      have : c.toNat < 97 := by omega
      have h97 : 97 ≤ c.toNat := char_le_toNat.mp hx.1
      omega
  · -- lowercase range: toLowerCase is the identity
    have hb1 : 97 ≤ c.toNat := char_le_toNat.mp h1
    have hcond : ¬('A' ≤ c ∧ c ≤ 'Z') := by
      intro hx
      have hZ90 : ('Z' : Char).toNat = 90 := rfl
      have := char_le_toNat.mp hx.2
      omega
    have hlc : lowerChar c = c := by rw [lowerChar, if_neg hcond]
    simp [hlc, h1, h2]

/-- C8: `parseNote` accepts exactly the strings of the grammar
letter(`A`–`G`, case-insensitive), optional accidental, optional octave
digit, optional dot, optional tie, in that order, returning `none` on
every other string; on success `soft` is true exactly when the letter
is lowercase, the `note` field is `pitchClass ++ octave`, and a missing
octave digit defaults the octave to 4. -/
theorem optList_takeOpt (p : Char → Bool) (l : List Char) :
    l = ((((takeOpt p l).1.map (fun c => [c])).getD []) ++ (takeOpt p l).2) := by
  rcases takeOpt_cases p l with ⟨h1, h2⟩ | ⟨c, h1, h2, h3⟩
  · rw [h1, h2]; rfl
  · rw [h1]
    simpa using h3

theorem takeOpt_some_prop (p : Char → Bool) (l : List Char) (c : Char)
    (h : (takeOpt p l).1 = some c) : p c = true := by
  rcases takeOpt_cases p l with ⟨h1, _⟩ | ⟨c2, h1, h2, _⟩
  · rw [h1] at h; exact Option.noConfusion h
  · rw [h1] at h
    rw [← (Option.some.injEq _ _).mp h]
    exact h2

theorem claim8_note_grammar (s : String) :
    ((parseNote s).isSome ↔ noteGrammarSpec s) ∧
    (∀ t, parseNote s = some t →
      ∃ l r, s.data = l :: r ∧ isNoteLetter l = true ∧
        (t.soft = true ↔ ('a' ≤ l ∧ l ≤ 'g')) ∧
        t.note = t.pitchClass ++ toString t.octave ∧
        ((∀ c ∈ s.data, c.isDigit = false) → t.octave = 4)) := by
  constructor
  · constructor
    · -- the parser accepts only grammar strings
      intro hsome
      cases hs : s.data with
      | nil => rw [parseNote, hs] at hsome; simp at hsome
      | cons letter r1 =>
        rw [parseNote, hs] at hsome
        dsimp only at hsome
        by_cases hl : isNoteLetter letter = true
        · rw [if_pos hl] at hsome
          by_cases hend :
              (takeOpt (· == '~')
                (takeOpt (· == '.')
                  (takeOpt Char.isDigit
                    (takeOpt (fun c => c == '#' || c == 'b') r1).2).2).2).2 = []
          · refine ⟨letter,
              (((takeOpt (fun c => c == '#' || c == 'b') r1).1.map (fun c => [c])).getD []),
              (((takeOpt Char.isDigit
                (takeOpt (fun c => c == '#' || c == 'b') r1).2).1.map (fun c => [c])).getD []),
              (((takeOpt (· == '.')
                (takeOpt Char.isDigit
                  (takeOpt (fun c => c == '#' || c == 'b') r1).2).2).1.map (fun c => [c])).getD []),
              (((takeOpt (· == '~')
                (takeOpt (· == '.')
                  (takeOpt Char.isDigit
                    (takeOpt (fun c => c == '#' || c == 'b') r1).2).2).2).1.map (fun c => [c])).getD []),
              ?_, hl, ?_, ?_, ?_, ?_⟩
            · rw [hs]
              have e1 := optList_takeOpt (fun c => c == '#' || c == 'b') r1
              have e2 := optList_takeOpt Char.isDigit
                (takeOpt (fun c => c == '#' || c == 'b') r1).2
              have e3 := optList_takeOpt (· == '.')
                (takeOpt Char.isDigit
                  (takeOpt (fun c => c == '#' || c == 'b') r1).2).2
              have e4 := optList_takeOpt (· == '~')
                (takeOpt (· == '.')
                  (takeOpt Char.isDigit
                    (takeOpt (fun c => c == '#' || c == 'b') r1).2).2).2
              rw [hend] at e4
              conv_lhs => rw [e1, e2, e3, e4]
              simp
            · cases hc : (takeOpt (fun c => c == '#' || c == 'b') r1).1 with
              | none => left; rfl
              | some c =>
                have hp := takeOpt_some_prop _ _ _ hc
                rcases (Bool.or_eq_true _ _).mp hp with hx | hx
                · right; left; rw [beq_iff_eq] at hx; rw [hx]; rfl
                · right; right; rw [beq_iff_eq] at hx; rw [hx]; rfl
            · cases hc : (takeOpt Char.isDigit
                  (takeOpt (fun c => c == '#' || c == 'b') r1).2).1 with
              | none => left; rfl
              | some c =>
                right
                exact ⟨c, rfl, takeOpt_some_prop _ _ _ hc⟩
            · cases hc : (takeOpt (· == '.')
                  (takeOpt Char.isDigit
                    (takeOpt (fun c => c == '#' || c == 'b') r1).2).2).1 with
              | none => left; rfl
              | some c =>
                have hp := takeOpt_some_prop _ _ _ hc
                right
                rw [beq_iff_eq] at hp
                rw [hp]
                rfl
            · cases hc : (takeOpt (· == '~')
                  (takeOpt (· == '.')
                    (takeOpt Char.isDigit
                      (takeOpt (fun c => c == '#' || c == 'b') r1).2).2).2).1 with
              | none => left; rfl
              | some c =>
                have hp := takeOpt_some_prop _ _ _ hc
                right
                rw [beq_iff_eq] at hp
                rw [hp]
                rfl
          · rw [if_neg hend] at hsome
            simp at hsome
        · rw [if_neg hl] at hsome
          simp at hsome
    · -- every grammar string is accepted
      rintro ⟨l, acc, dig, dot, tie, hdata, hl, hacc, hdig, hdot, htie⟩
      rw [parseNote, hdata]
      dsimp only
      rw [if_pos hl]
      have f1 : ((('.' : Char) == '#') || (('.' : Char) == 'b')) = false := rfl
      have f2 : ((('~' : Char) == '#') || (('~' : Char) == 'b')) = false := rfl
      have f3 : ('.' : Char).isDigit = false := rfl
      have f4 : ('~' : Char).isDigit = false := rfl
      have f5 : (('~' : Char) == '.') = false := rfl
      rcases hdig with rfl | ⟨d, rfl, hd⟩
      · rcases hacc with rfl | rfl | rfl <;> rcases hdot with rfl | rfl <;>
          rcases htie with rfl | rfl <;>
          simp [takeOpt, f1, f2, f3, f4, f5]
      · have hda := digit_not_accidental d hd
        rcases hacc with rfl | rfl | rfl <;> rcases hdot with rfl | rfl <;>
          rcases htie with rfl | rfl <;>
          simp [takeOpt, f1, f2, f3, f4, f5, hd, hda]
  · -- field properties on success
    intro t ht
    cases hs : s.data with
    | nil => rw [parseNote, hs] at ht; exact Option.noConfusion ht
    | cons letter r1 =>
      rw [parseNote, hs] at ht
      dsimp only at ht
      by_cases hl : isNoteLetter letter = true
      · rw [if_pos hl] at ht
        by_cases hend :
            (takeOpt (· == '~')
              (takeOpt (· == '.')
                (takeOpt Char.isDigit
                  (takeOpt (fun c => c == '#' || c == 'b') r1).2).2).2).2 = []
        · rw [if_pos hend] at ht
          have ht' := (Option.some.injEq _ _).mp ht
          refine ⟨letter, r1, rfl, hl, ?_, ?_, ?_⟩
          · rw [← ht']
            exact lowerChar_eq_self_iff letter hl
          · rw [← ht']
          · intro hnod
            rcases takeOpt_cases Char.isDigit
                (takeOpt (fun c => c == '#' || c == 'b') r1).2 with
              ⟨hdig1, _⟩ | ⟨cd, hdig1, hdig2, hdig3⟩
            · rw [← ht']
              simp [octaveOf, hdig1]
            · exfalso
              have hmem : cd ∈ r1 := by
                rcases takeOpt_cases (fun c => c == '#' || c == 'b') r1 with
                  ⟨_, hacc2⟩ | ⟨ca, _, _, hacc3⟩
                · rw [hacc2] at hdig3
                  rw [hdig3]
                  simp
                · rw [hacc3, hdig3]
                  simp
              have := hnod cd (List.mem_cons_of_mem letter hmem)
              rw [hdig2] at this
              exact Bool.noConfusion this
        · rw [if_neg hend] at ht
          exact Option.noConfusion ht
      · rw [if_neg hl] at ht
        exact Option.noConfusion ht


/-- C8 witness: the grammar characterization and the success properties
discharged at `"c#"` (lowercase soft letter, accidental, no octave
digit). -/
theorem claim8_witness :
    noteGrammarSpec "c#" ∧
    (∃ l r, ("c#" : String).data = l :: r ∧ isNoteLetter l = true ∧
      (({ raw := "c#", note := "C#4", pitchClass := "C#", octave := 4, dotted := false, tied := false, soft := true } : NoteToken).soft = true ↔
        ('a' ≤ l ∧ l ≤ 'g')) ∧
      ({ raw := "c#", note := "C#4", pitchClass := "C#", octave := 4, dotted := false, tied := false, soft := true } : NoteToken).note =
        ({ raw := "c#", note := "C#4", pitchClass := "C#", octave := 4, dotted := false, tied := false, soft := true } : NoteToken).pitchClass ++
          toString ({ raw := "c#", note := "C#4", pitchClass := "C#", octave := 4, dotted := false, tied := false, soft := true } : NoteToken).octave ∧
      ((∀ c ∈ ("c#" : String).data, c.isDigit = false) →
        ({ raw := "c#", note := "C#4", pitchClass := "C#", octave := 4, dotted := false, tied := false, soft := true } : NoteToken).octave = 4)) :=
  ⟨(claim8_note_grammar "c#").1.mp (by decide),
   (claim8_note_grammar "c#").2
     { raw := "c#", note := "C#4", pitchClass := "C#", octave := 4, dotted := false, tied := false, soft := true }
     (by decide)⟩

/-! ## `scheduleMusic` grouping, sorting and monophonic dedup
(part of `audio.ts`, lines 580–655)

`scheduleMusic` groups all compiled events by instrument (in line then
token order), sorts each group by beat (`Array.prototype.sort` with the
comparator `a.beat - b.beat` — a stable sort, modelled by insertion
sort, which is the unique stable sort), and for the monophonic
instruments (`MONO_INSTRUMENTS = {"bass"}`) deduplicates same-beat
events through a JS `Map` keyed by beat —
`[...new Map(evList.map(e => [e.event.beat, e])).values()]` — whose
insertion semantics keep the first position and the last value per
key. -/

/-- The per-instrument event group of `scheduleMusic`'s `byInstrument`
map: all events of that instrument, in line order then token order. -/
def instrEvents (lines : List Line) (inst : String) : List NoteEvent :=
  (lines.flatMap (fun l => l.events)).filter (fun e => e.instrument == inst)

/-- Comparator order of `evList.sort((a, b) => a.event.beat - b.event.beat)`. -/
def beatLE (a c : NoteEvent) : Prop := a.beat ≤ c.beat

instance : DecidableRel beatLE := fun a c => inferInstanceAs (Decidable (a.beat ≤ c.beat))

instance : IsTotal NoteEvent beatLE := ⟨fun a c => le_total a.beat c.beat⟩

instance : IsTrans NoteEvent beatLE := ⟨fun _ _ _ hab hbc => le_trans hab hbc⟩

/-- One insertion into a JS `Map` keyed by `beat`: an existing key keeps
its position but takes the new value; a new key is appended. -/
def jsMapInsert (acc : List NoteEvent) (e : NoteEvent) : List NoteEvent :=
  if acc.any (fun x => x.beat == e.beat) then
    acc.map (fun x => if x.beat == e.beat then e else x)
  else acc ++ [e]

/-- `[...new Map(evList.map(e => [e.event.beat, e])).values()]`. -/
def dedupLastByBeat (l : List NoteEvent) : List NoteEvent := l.foldl jsMapInsert []

/-- The event list handed to `new Tone.Part` for one instrument. -/
def partEvents (lines : List Line) (inst : String) : List NoteEvent :=
  let evList := List.insertionSort beatLE (instrEvents lines inst)
  if inst == "bass" then dedupLastByBeat evList else evList

/-- A stable sort by beat leaves each same-beat fibre unchanged. -/
theorem insertionSort_filter_beat (b : Rat) :
    ∀ l : List NoteEvent,
      (List.insertionSort beatLE l).filter (fun x => x.beat == b) =
        l.filter (fun x => x.beat == b) := by
  intro l
  induction l with
  | nil => rfl
  | cons x xs ih =>
    rw [List.insertionSort, List.orderedInsert_eq_take_drop, List.filter_append]
    have hLsplit :
        ((List.insertionSort beatLE xs).takeWhile
            (fun c => decide ¬beatLE x c)).filter (fun y => y.beat == b) ++
          ((List.insertionSort beatLE xs).dropWhile
            (fun c => decide ¬beatLE x c)).filter (fun y => y.beat == b) =
        (List.insertionSort beatLE xs).filter (fun y => y.beat == b) := by
      rw [← List.filter_append, List.takeWhile_append_dropWhile]
    by_cases hxb : x.beat = b
    · have hftw : ((List.insertionSort beatLE xs).takeWhile
          (fun c => decide ¬beatLE x c)).filter (fun y => y.beat == b) = [] := by
        rw [List.filter_eq_nil_iff]
        intro y hy
        have hq := List.mem_takeWhile_imp hy
        simp only [decide_eq_true_eq, beatLE] at hq
        have hlt : y.beat < x.beat := lt_of_not_le hq
        simp only [beq_iff_eq]
        intro hyb
        rw [hxb] at hlt
        rw [hyb] at hlt
        exact lt_irrefl b hlt
      have hdw : ((List.insertionSort beatLE xs).dropWhile
          (fun c => decide ¬beatLE x c)).filter (fun y => y.beat == b) =
          xs.filter (fun y => y.beat == b) := by
        rw [← ih, ← hLsplit, hftw, List.nil_append]
      rw [hftw, List.nil_append,
        List.filter_cons_of_pos (by simp [hxb]), hdw,
        List.filter_cons_of_pos (by simp [hxb])]
    · rw [List.filter_cons_of_neg (by simp [hxb]),
        List.filter_cons_of_neg (by simp [hxb]), hLsplit]
      exact ih

theorem mem_jsMapInsert {acc : List NoteEvent} {x e : NoteEvent} :
    e ∈ jsMapInsert acc x ↔ e = x ∨ (e ∈ acc ∧ e.beat ≠ x.beat) := by
  rw [jsMapInsert]
  by_cases hany : acc.any (fun y => y.beat == x.beat) = true
  · rw [if_pos hany]
    constructor
    · intro hmem
      obtain ⟨y, hy, hfy⟩ := List.mem_map.mp hmem
      by_cases hyb : y.beat = x.beat
      · left
        rw [if_pos (by simpa using hyb)] at hfy
        exact hfy.symm
      · right
        rw [if_neg (by simpa using hyb)] at hfy
        rw [← hfy]
        exact ⟨hy, hyb⟩
    · intro hmem
      rcases hmem with rfl | ⟨hmem, hne⟩
      · obtain ⟨y, hy, hyb⟩ := List.any_eq_true.mp hany
        refine List.mem_map.mpr ⟨y, hy, ?_⟩
        rw [if_pos hyb]
      · refine List.mem_map.mpr ⟨e, hmem, ?_⟩
        rw [if_neg (by simpa using hne)]
  · rw [if_neg hany]
    simp only [List.any_eq_true] at hany
    push_neg at hany
    constructor
    · intro hmem
      rcases List.mem_append.mp hmem with hmem | hmem
      · right
        refine ⟨hmem, ?_⟩
        simpa using hany e hmem
      · left
        simpa using hmem
    · intro hmem
      rcases hmem with rfl | ⟨hmem, _⟩
      · exact List.mem_append.mpr (Or.inr (by simp))
      · exact List.mem_append.mpr (Or.inl hmem)

theorem jsMapInsert_beat_eq (x y : NoteEvent) :
    (if y.beat == x.beat then x else y).beat = y.beat := by
  by_cases h : y.beat = x.beat
  · rw [if_pos (by simpa using h), h]
  · rw [if_neg (by simpa using h)]

theorem jsMapInsert_pairwise {acc : List NoteEvent} {x : NoteEvent}
    (hp : List.Pairwise (fun a c => a.beat < c.beat) acc)
    (hle : ∀ a ∈ acc, a.beat ≤ x.beat) :
    List.Pairwise (fun a c => a.beat < c.beat) (jsMapInsert acc x) := by
  rw [jsMapInsert]
  by_cases hany : acc.any (fun y => y.beat == x.beat) = true
  · rw [if_pos hany]
    rw [List.pairwise_map]
    refine hp.imp ?_
    intro a c hac
    rw [jsMapInsert_beat_eq x a, jsMapInsert_beat_eq x c]
    exact hac
  · rw [if_neg hany]
    simp only [List.any_eq_true] at hany
    push_neg at hany
    rw [List.pairwise_append]
    refine ⟨hp, List.pairwise_singleton _ _, ?_⟩
    intro a ha c hc
    rw [List.mem_singleton.mp hc]
    have h1 := hle a ha
    have h2 := hany a ha
    exact lt_of_le_of_ne h1 (by simpa using h2)

theorem dedup_pairwise :
    ∀ (l acc : List NoteEvent), List.Sorted beatLE l →
      List.Pairwise (fun a c => a.beat < c.beat) acc →
      (∀ a ∈ acc, ∀ y ∈ l, a.beat ≤ y.beat) →
      List.Pairwise (fun a c => a.beat < c.beat) (l.foldl jsMapInsert acc) := by
  intro l
  induction l with
  | nil => intro acc _ hp _; exact hp
  | cons x l' ih =>
    intro acc hs hp hle
    rw [List.foldl_cons]
    rw [List.sorted_cons] at hs
    refine ih (jsMapInsert acc x) hs.2 (jsMapInsert_pairwise hp
      (fun a ha => hle a ha x (by simp))) ?_
    intro a ha y hy
    rcases mem_jsMapInsert.mp ha with rfl | ⟨ha2, _⟩
    · exact hs.1 y hy
    · exact hle a ha2 y (by simp [hy])

theorem dedup_beat_mem :
    ∀ (l acc : List NoteEvent) (b : Rat),
      ((∃ y ∈ l, y.beat = b) ∨ ∃ a ∈ acc, a.beat = b) →
      ∃ e ∈ l.foldl jsMapInsert acc, e.beat = b := by
  intro l
  induction l with
  | nil =>
    intro acc b h
    rcases h with ⟨y, hy, _⟩ | h
    · simp at hy
    · exact h
  | cons x l' ih =>
    intro acc b h
    rw [List.foldl_cons]
    have hx : x ∈ jsMapInsert acc x := mem_jsMapInsert.mpr (Or.inl rfl)
    rcases h with ⟨y, hy, hyb⟩ | ⟨a, ha, hab⟩
    · rcases List.mem_cons.mp hy with heq | hy2
      · exact ih (jsMapInsert acc x) b (Or.inr ⟨x, hx, heq ▸ hyb⟩)
      · exact ih (jsMapInsert acc x) b (Or.inl ⟨y, hy2, hyb⟩)
    · by_cases hax : a.beat = x.beat
      · exact ih (jsMapInsert acc x) b (Or.inr ⟨x, hx, by rw [← hax, hab]⟩)
      · exact ih (jsMapInsert acc x) b
          (Or.inr ⟨a, mem_jsMapInsert.mpr (Or.inr ⟨ha, hax⟩), hab⟩)

theorem dedup_getLast_char :
    ∀ (l acc : List NoteEvent), List.Sorted beatLE l →
      (∀ a ∈ acc, ∀ y ∈ l, a.beat ≤ y.beat) →
      ∀ e ∈ l.foldl jsMapInsert acc,
        (e ∈ acc ∧ ∀ y ∈ l, y.beat ≠ e.beat) ∨
          (l.filter (fun y => y.beat == e.beat)).getLast? = some e := by
  intro l
  induction l with
  | nil =>
    intro acc _ _ e he
    exact Or.inl ⟨he, by simp⟩
  | cons x l' ih =>
    intro acc hs hle e he
    rw [List.foldl_cons] at he
    rw [List.sorted_cons] at hs
    have hle' : ∀ a ∈ jsMapInsert acc x, ∀ y ∈ l', a.beat ≤ y.beat := by
      intro a ha y hy
      rcases mem_jsMapInsert.mp ha with rfl | ⟨ha2, _⟩
      · exact hs.1 y hy
      · exact hle a ha2 y (by simp [hy])
    rcases ih (jsMapInsert acc x) hs.2 hle' e he with ⟨hacc, hno⟩ | hlast
    · rcases mem_jsMapInsert.mp hacc with rfl | ⟨hacc2, hne⟩
      · right
        have hfl' : l'.filter (fun y => y.beat == e.beat) = [] := by
          rw [List.filter_eq_nil_iff]
          intro y hy
          simpa using hno y hy
        rw [List.filter_cons_of_pos (by simp), hfl']
        rfl
      · left
        refine ⟨hacc2, ?_⟩
        intro y hy
        rcases List.mem_cons.mp hy with rfl | hy2
        · exact fun hx => hne hx.symm
        · exact hno y hy2
    · right
      by_cases hxb : x.beat = e.beat
      · rw [List.filter_cons_of_pos (by simpa using hxb)]
        have hne : l'.filter (fun y => y.beat == e.beat) ≠ [] := by
          intro hnil
          rw [hnil] at hlast
          exact Option.noConfusion hlast
        cases hfl : l'.filter (fun y => y.beat == e.beat) with
        | nil => exact absurd hfl hne
        | cons z zs =>
          rw [hfl] at hlast
          rw [List.getLast?_cons_cons]
          exact hlast
      · rw [List.filter_cons_of_neg (by simpa using hxb)]
        exact hlast

/-- C5: when scheduling live playback, the monophonic `bass` channel
keeps, among all its events landing on the exact same beat, exactly one
scheduled event — the last one in declaration (line) order — while for
every other instrument all grouped events are scheduled (the sorted
part list is a permutation of the group). -/
theorem claim5_mono_dedup (text : String) :
    (∀ inst, inst ≠ "bass" →
      (partEvents (parseAllLines text).lines inst).Perm
        (instrEvents (parseAllLines text).lines inst)) ∧
    (∀ b : Rat,
      (∃ e ∈ instrEvents (parseAllLines text).lines "bass", e.beat = b) ↔
        ∃ e ∈ partEvents (parseAllLines text).lines "bass", e.beat = b) ∧
    List.Pairwise (fun a c => a.beat < c.beat)
      (partEvents (parseAllLines text).lines "bass") ∧
    (∀ e ∈ partEvents (parseAllLines text).lines "bass",
      ((instrEvents (parseAllLines text).lines "bass").filter
        (fun y => y.beat == e.beat)).getLast? = some e) := by
  have hchar : ∀ e ∈ partEvents (parseAllLines text).lines "bass",
      ((instrEvents (parseAllLines text).lines "bass").filter
        (fun y => y.beat == e.beat)).getLast? = some e := by
    intro e he
    have hs : List.Sorted beatLE
        (List.insertionSort beatLE (instrEvents (parseAllLines text).lines "bass")) :=
      List.sorted_insertionSort beatLE _
    have he2 : e ∈ (List.insertionSort beatLE
        (instrEvents (parseAllLines text).lines "bass")).foldl jsMapInsert [] := by
      simpa [partEvents, dedupLastByBeat] using he
    rcases dedup_getLast_char _ [] hs (by simp) e he2 with ⟨habs, _⟩ | hlast
    · simp at habs
    · rw [← insertionSort_filter_beat]
      exact hlast
  refine ⟨?_, ?_, ?_, hchar⟩
  · intro inst hinst
    have : partEvents (parseAllLines text).lines inst =
        List.insertionSort beatLE (instrEvents (parseAllLines text).lines inst) := by
      rw [partEvents, if_neg (by simpa using hinst)]
    rw [this]
    exact List.perm_insertionSort beatLE _
  · intro b
    constructor
    · rintro ⟨e, he, heb⟩
      have hmem : e ∈ List.insertionSort beatLE
          (instrEvents (parseAllLines text).lines "bass") :=
        (List.perm_insertionSort beatLE _).symm.subset he
      have := dedup_beat_mem
        (List.insertionSort beatLE (instrEvents (parseAllLines text).lines "bass")) [] b
        (Or.inl ⟨e, hmem, heb⟩)
      simpa [partEvents, dedupLastByBeat] using this
    · rintro ⟨e, he, heb⟩
      have hlast := hchar e he
      have hmemf := List.mem_of_getLast?_eq_some hlast
      have := List.mem_filter.mp hmemf
      exact ⟨e, this.1, heb⟩
  · have hs : List.Sorted beatLE
        (List.insertionSort beatLE (instrEvents (parseAllLines text).lines "bass")) :=
      List.sorted_insertionSort beatLE _
    have := dedup_pairwise
      (List.insertionSort beatLE (instrEvents (parseAllLines text).lines "bass")) []
      hs (by simp) (by simp)
    simpa [partEvents, dedupLastByBeat] using this

/-- C5 witness: the non-mono conclusion discharged at a concrete text
and instrument, plus the bass dedup evaluated on a two-line text whose
two bass events share beat 0. -/
theorem claim5_witness :
    ("piano" ≠ "bass") ∧
    (partEvents (parseAllLines "bass: C2\nbass: D2").lines "piano").Perm
      (instrEvents (parseAllLines "bass: C2\nbass: D2").lines "piano") :=
  ⟨by decide, (claim5_mono_dedup "bass: C2\nbass: D2").1 "piano" (by decide)⟩

/-! ## The structured-song expander (`yaml-parser`, newer revision)

The expander receives the document already parsed by the external
`yaml` library (`YAML.parse` / `parseDocument`); we embed everything
downstream of that library.  A document is the sample declarations, the
raw `sections:` items — each section a list of `(instrument, pattern)`
scalar pairs in document order, duplicate instrument keys allowed — and
the `song:` order list. -/

/-- The parsed YAML document as handed to `parseYamlSong`. -/
structure ProsodyDoc where
  samples : List (String × String)
  sections : List (String × List (String × String))
  song : List String
deriving DecidableEq, Repr

/-- JS object-record assignment `r[k] = v`: an existing key keeps its
position and takes the new value, a new key is appended. -/
def recSet {α : Type} (r : List (String × α)) (k : String) (v : α) :
    List (String × α) :=
  if r.any (fun p => p.1 == k) then
    r.map (fun p => if p.1 == k then (k, v) else p)
  else r ++ [(k, v)]

/-- JS object-record lookup `r[k]`. -/
def recFind {α : Type} (r : List (String × α)) (k : String) : Option α :=
  (r.find? (fun p => p.1 == k)).map Prod.snd

/-- One step of `parseSectionMap`: `if (!result.has(key)) result.set(key, []);
result.get(key)!.push(value)` — the key keeps its first position and
accumulates its values in order. -/
def groupInsert (r : List (String × List String)) (k v : String) :
    List (String × List String) :=
  if r.any (fun p => p.1 == k) then
    r.map (fun p => if p.1 == k then (p.1, p.2 ++ [v]) else p)
  else r ++ [(k, [v])]

/-- `parseSectionMap` (part_003 lines 89–100): group a section's raw
items by instrument, preserving duplicate keys as pattern lists. -/
def parseSectionMap (items : List (String × String)) :
    List (String × List String) :=
  items.foldl (fun r p => groupInsert r p.1 p.2) []

/-- `parseSectionsFromAst` (lines 105–126): build the section record;
a duplicate section name overwrites (`result[sectionName] = ...`). -/
def parseSectionsFromAst (d : ProsodyDoc) :
    List (String × List (String × List String)) :=
  d.sections.foldl (fun r p => recSet r p.1 (parseSectionMap p.2)) []

/-- `getSectionBeats` (lines 129–142): the largest `last.beat +
last.duration` over the section's pattern lines, compiled as
`` `${inst}: ${pattern}` ``; lines without events are skipped. -/
def getSectionBeats (sec : List (String × List String)) : Rat :=
  sec.foldl (fun m p => p.2.foldl (fun m2 pat =>
    let l := parseLine (p.1 ++ ": " ++ pat) 0
    if l.events ≠ [] ∧ m2 < lineLen l then lineLen l else m2) m) 0

/-- JS `Math.round`: round half away from... round half up (toward
positive infinity), `Math.round(q) = ⌊q + 1/2⌋`. -/
def jsRound (q : Rat) : Int := ⌊q + 1 / 2⌋

/-- The characters of `Array(n).fill("-").join(" ")`. -/
def restsChars : Nat → List Char
  | 0 => []
  | 1 => ['-']
  | n + 2 => '-' :: ' ' :: restsChars (n + 1)

/-- `generateRests` (lines 145–149). -/
def generateRests (beats : Rat) : String :=
  if jsRound beats ≤ 0 then "" else String.mk (restsChars (jsRound beats).toNat)

/-- `parseInt` on a digit string. -/
def digitsToNat (ds : List Char) : Nat :=
  ds.foldl (fun n c => n * 10 + (c.toNat - 48)) 0

/-- The repeat-entry regex `^(\S+)\s*[xX*](\d+)$` of `expandSongOrder`
(line 264).  Anchored at `$`, the digit group is forced to be the
maximal digit suffix, the multiplier char sits right before it, and the
greedy `\S+` takes everything before the whitespace run. -/
def matchRepeat (entry : String) : Option (String × Nat) :=
  let rcs := entry.data.reverse
  let ds := rcs.takeWhile Char.isDigit
  match rcs.drop ds.length with
  | [] => none
  | m :: rest2 =>
    if ds ≠ [] ∧ (m = 'x' ∨ m = 'X' ∨ m = '*') then
      let ws := rest2.takeWhile Char.isWhitespace
      let name := (rest2.drop ws.length).reverse
      if name ≠ [] ∧ name.all (fun c => !c.isWhitespace) then
        some (String.mk name, digitsToNat ds.reverse)
      else none
    else none

/-- JS `String.prototype.trim`. -/
def trimStr (s : String) : String :=
  String.mk (((s.data.dropWhile Char.isWhitespace).reverse.dropWhile
    Char.isWhitespace).reverse)

/-- `expandSongOrder` (lines 259–276): `"chorus x3"` becomes three
`"chorus"` entries, a non-matching entry is trimmed and kept. -/
def expandSongOrder (order : List String) : List String :=
  order.flatMap (fun entry =>
    match matchRepeat entry with
    | some (name, count) => List.replicate count name
    | none => [trimStr entry])

/-- The expanded section-instance order (line 181):
`songOrder.length > 0 ? expandSongOrder(songOrder) : Object.keys(sections)`. -/
def sectionNames (d : ProsodyDoc) : List String :=
  if d.song ≠ [] then expandSongOrder d.song
  else (parseSectionsFromAst d).map Prod.fst

/-- `sectionBeatCounts[name] ?? 0` (lines 185–188, 228). -/
def sectionBeatCount (d : ProsodyDoc) (name : String) : Rat :=
  match recFind (parseSectionsFromAst d) name with
  | some s => getSectionBeats s
  | none => 0

/-- `allInstruments` (lines 191–201): first-seen order of every
instrument key over the defined sections of the song order. -/
def allInstruments (d : ProsodyDoc) : List String :=
  (sectionNames d).foldl (fun acc name =>
    match recFind (parseSectionsFromAst d) name with
    | none => acc
    | some s => s.foldl (fun a p => if p.1 ∈ a then a else a ++ [p.1]) acc) []

/-- `instMaxLines` (lines 205–210): per instrument, the largest pattern
count over every section of the document. -/
def instMaxLinesRec (d : ProsodyDoc) : List (String × Nat) :=
  (parseSectionsFromAst d).foldl (fun r p =>
    p.2.foldl (fun r2 q =>
      recSet r2 q.1 (max ((recFind r2 q.1).getD 0) q.2.length)) r) []

/-- `instMaxLines[inst] ?? 1` (line 216). -/
def numLinesFor (d : ProsodyDoc) (inst : String) : Nat :=
  (recFind (instMaxLinesRec d) inst).getD 1

/-- The loop body of the segment builder (lines 228–239): the section's
pattern at line index `i` if defined, otherwise a run of rests covering
the section's beat count; an undefined section is skipped
(`if (!section) continue`). -/
def segOf (d : ProsodyDoc) (inst : String) (i : Nat) (name : String) : Option String :=
  match recFind (parseSectionsFromAst d) name with
  | none => none
  | some s =>
    match (recFind s inst).bind (fun patterns => patterns[i]?) with
    | some pat => some pat
    | none => some (generateRests (sectionBeatCount d name))

/-- The per-(instrument, line-index) segment list over the song order
(lines 222–239). -/
def segmentsFor (d : ProsodyDoc) (inst : String) (i : Nat) : List String :=
  (sectionNames d).filterMap (segOf d inst i)

/-- `join(" ")`. -/
def joinSpace : List String → String
  | [] => ""
  | [s] => s
  | s :: t :: rest => s ++ " " ++ joinSpace (t :: rest)

/-- `join("\n")`. -/
def joinNl : List String → String
  | [] => ""
  | [s] => s
  | s :: t :: rest => s ++ "\n" ++ joinNl (t :: rest)

/-- One emitted flat-text line (line 245):
`` `${inst}: ${segments.filter(Boolean).join(" ")}` `` — JS
`filter(Boolean)` drops exactly the empty strings. -/
def emittedLine (d : ProsodyDoc) (inst : String) (i : Nat) : String :=
  inst ++ ": " ++ joinSpace ((segmentsFor d inst i).filter (fun s => s ≠ ""))

/-- The whole emitted text (lines 173–176, 242–249): sample declaration
lines first, then one line per instrument per line index. -/
def parseYamlSongText (d : ProsodyDoc) : String :=
  joinNl (d.samples.map (fun p => p.1 ++ ": " ++ p.2) ++
    (allInstruments d).flatMap (fun inst =>
      (List.range (numLinesFor d inst)).map (fun i => emittedLine d inst i)))

/-- The total beat length of the whole song: the sum of the computed
beat counts over the expanded song order (an undefined section counts
0 and is skipped uniformly for every instrument). -/
def totalBeats (d : ProsodyDoc) : Rat :=
  ((sectionNames d).map (fun name => sectionBeatCount d name)).sum

/-! ## `isYamlFormat` / `tryParseYaml` (part_003 lines 79–84, 285–291) -/

/-- The keyword alternation of the detection regex
`/^(sections|song|bpm|volumes|instruments|samples)\s*:/m`. -/
def keywordList : List String :=
  ["sections", "song", "bpm", "volumes", "instruments", "samples"]

/-- Whether one of the keywords, then `\s*`, then `:` matches at the
start of `cs`. -/
def keyAt (cs : List Char) : Bool :=
  keywordList.any (fun kw =>
    kw.data.isPrefixOf cs &&
    match (cs.drop kw.data.length).dropWhile Char.isWhitespace with
    | ':' :: _ => true
    | _ => false)

/-- Scan for a multiline `^` match strictly after a line terminator. -/
def scanKeys : List Char → Bool
  | [] => false
  | c :: cs => (if c = '\n' ∨ c = '\r' then keyAt cs else false) || scanKeys cs

/-- `isYamlFormat` (lines 79–84): the detection regex, applied to the
trimmed input in multiline mode. -/
def isYamlFormat (input : String) : Bool :=
  let t := (trimStr input).data
  keyAt t || scanKeys t

/-- `tryParseYaml` (lines 285–291).  The external YAML library call and
the not-an-object throw of `parseYamlSong` are abstracted as the
`parsed` argument: `none` when `YAML.parse` threw or produced a
non-object, `some d` when it produced document `d`; the `try/catch`
turns the former into `null`. -/
def tryParseYaml (input : String) (parsed : Option ProsodyDoc) :
    Option String :=
  if isYamlFormat input then parsed.map parseYamlSongText else none

/-! ## Lexing a concatenation of bracket-closed segments -/

/-- Every `[` opened in `cs` is answered by some later `]`, so the
chord scanner never runs off the end of `cs`. -/
def bracketsClosed : List Char → Bool
  | [] => true
  | c :: r => (if c = '[' then r.contains ']' else true) && bracketsClosed r

/-- Whitespace inside `cs` is plain spaces only. -/
def onlySpaceWs (cs : List Char) : Prop :=
  ∀ c ∈ cs, c.isWhitespace → c = ' '

/-- The remainder of `readRaw` is a suffix of its input. -/
theorem readRaw_suffix : ∀ cs : List Char, ∃ k, (readRaw cs).2 = cs.drop k := by
  intro cs
  induction cs with
  | nil => exact ⟨0, rfl⟩
  | cons c cs ih =>
    rw [readRaw]
    split
    · exact ⟨0, rfl⟩
    · obtain ⟨k, hk⟩ := ih
      exact ⟨k + 1, by simpa using hk⟩

/-- The remainder of `splitClose` is a suffix of its input. -/
theorem splitClose_suffix : ∀ (cs : List Char) p, splitClose cs = some p →
    ∃ k, p.2 = cs.drop k := by
  intro cs
  induction cs with
  | nil => intro p h; exact absurd h (by simp [splitClose])
  | cons c cs ih =>
    intro p h
    rw [splitClose] at h
    split at h
    · obtain rfl := Option.some.inj h
      exact ⟨1, rfl⟩
    · cases hs : splitClose cs with
      | none => rw [hs] at h; exact absurd h (by simp)
      | some q =>
        rw [hs] at h
        obtain rfl := Option.some.inj h
        obtain ⟨k, hk⟩ := ih q hs
        exact ⟨k + 1, by simpa using hk⟩

/-- `splitClose` succeeds whenever a `]` occurs in the input. -/
theorem splitClose_isSome : ∀ cs : List Char, cs.contains ']' = true →
    ∃ p, splitClose cs = some p := by
  intro cs
  induction cs with
  | nil => intro h; simp [List.contains] at h
  | cons c cs ih =>
    intro h
    rw [splitClose]
    by_cases hc : c = ']'
    · exact ⟨([], cs), by rw [if_pos hc]⟩
    · have : cs.contains ']' = true := by
        simp only [List.contains_cons] at h
        rcases Bool.or_eq_true_iff.mp h with h1 | h1
        · have : ']' = c := by simpa using h1
          exact absurd this.symm hc
        · exact h1
      obtain ⟨q, hq⟩ := ih this
      exact ⟨(c :: q.1, q.2), by rw [if_neg hc, hq]; rfl⟩

/-- The lexer is fuel-irrelevant above the input length. -/
theorem tokenizeFuel_irrel : ∀ (f g : Nat) (cs : List Char),
    cs.length ≤ f → cs.length ≤ g → tokenizeFuel f cs = tokenizeFuel g cs := by
  intro f
  induction f with
  | zero =>
    intro g cs hf _
    have : cs = [] := List.eq_nil_of_length_eq_zero (by omega)
    subst this
    cases g <;> rfl
  | succ m ih =>
    intro g cs hf hg
    cases cs with
    | nil => cases g <;> rfl
    | cons c cs' =>
      simp only [List.length_cons] at hf hg
      obtain ⟨g', rfl⟩ : ∃ g', g = g' + 1 := ⟨g - 1, by omega⟩
      simp only [tokenizeFuel]
      by_cases hsp : c = ' '
      · rw [if_pos hsp, if_pos hsp]
        exact ih g' cs' (by omega) (by omega)
      · rw [if_neg hsp, if_neg hsp]
        by_cases hbr : c = '['
        · rw [if_pos hbr, if_pos hbr]
          cases hs : splitClose cs' with
          | none => rfl
          | some q =>
            obtain ⟨k, hk⟩ := splitClose_suffix cs' q hs
            have hlen : q.2.length ≤ cs'.length := by
              rw [hk]; simpa using List.length_drop_le k cs'
            exact congrArg (chordToken q.1 :: ·) (ih g' q.2 (by omega) (by omega))
        · rw [if_neg hbr, if_neg hbr]
          have hrr : readRaw (c :: cs') = (c :: (readRaw cs').1, (readRaw cs').2) := by
            rw [readRaw, if_neg (by tauto)]
          rw [hrr]
          obtain ⟨k, hk⟩ := readRaw_suffix cs'
          have hlen : (readRaw cs').2.length ≤ cs'.length := by
            rw [hk]; simpa using List.length_drop_le k cs'
          exact congrArg _ (ih g' (readRaw cs').2 (by omega) (by omega))

/-- One lexer step, phrased on `tokenizeChars`. -/
theorem tokenizeChars_cons (c : Char) (cs : List Char) :
    tokenizeChars (c :: cs) =
      if c = ' ' then tokenizeChars cs
      else if c = '[' then
        match splitClose cs with
        | none => [Token.invalid (String.mk ('[' :: cs))]
        | some (inside, after) => chordToken inside :: tokenizeChars after
      else
        classifyRaw (String.mk (readRaw (c :: cs)).1) ::
          tokenizeChars (readRaw (c :: cs)).2 := by
  show tokenizeFuel (cs.length + 1) (c :: cs) = _
  simp only [tokenizeFuel]
  by_cases hsp : c = ' '
  · rw [if_pos hsp, if_pos hsp]; rfl
  · rw [if_neg hsp, if_neg hsp]
    by_cases hbr : c = '['
    · rw [if_pos hbr, if_pos hbr]
      cases hs : splitClose cs with
      | none => rfl
      | some q =>
        obtain ⟨k, hk⟩ := splitClose_suffix cs q hs
        have hlen : q.2.length ≤ cs.length := by
          rw [hk]; simpa using List.length_drop_le k cs
        exact congrArg (chordToken q.1 :: ·)
          (tokenizeFuel_irrel cs.length q.2.length q.2 hlen le_rfl)
    · rw [if_neg hbr, if_neg hbr]
      have hrr : readRaw (c :: cs) = (c :: (readRaw cs).1, (readRaw cs).2) := by
        rw [readRaw, if_neg (by tauto)]
      rw [hrr]
      obtain ⟨k, hk⟩ := readRaw_suffix cs
      have hlen : (readRaw cs).2.length ≤ cs.length := by
        rw [hk]; simpa using List.length_drop_le k cs
      exact congrArg _
        (tokenizeFuel_irrel cs.length (readRaw cs).2.length (readRaw cs).2 hlen le_rfl)

/-- Skipping the leading space. -/
theorem tokenizeChars_space (cs : List Char) :
    tokenizeChars (' ' :: cs) = tokenizeChars cs := by
  rw [tokenizeChars_cons, if_pos rfl]

/-- Bracket closure passes to the tail. -/
theorem bracketsClosed_tail {c : Char} {r : List Char}
    (h : bracketsClosed (c :: r) = true) : bracketsClosed r = true := by
  rw [bracketsClosed, Bool.and_eq_true] at h
  exact h.2

/-- Bracket closure passes to every suffix. -/
theorem bracketsClosed_drop (k : Nat) : ∀ cs : List Char,
    bracketsClosed cs = true → bracketsClosed (cs.drop k) = true := by
  induction k with
  | zero => intro cs h; simpa using h
  | succ m ih =>
    intro cs h
    cases cs with
    | nil => simpa using h
    | cons c r => exact ih r (bracketsClosed_tail h)

/-- A bracket-free string is bracket-closed. -/
theorem bracketsClosed_of_no_bracket : ∀ cs : List Char,
    (∀ c ∈ cs, c ≠ '[') → bracketsClosed cs = true := by
  intro cs
  induction cs with
  | nil => intro _; rfl
  | cons c r ih =>
    intro h
    rw [bracketsClosed, Bool.and_eq_true]
    refine ⟨?_, ih (fun x hx => h x (by simp [hx]))⟩
    rw [if_neg (h c (by simp))]

/-- `readRaw` over an appended space-led tail. -/
theorem readRaw_append : ∀ (xs ys : List Char),
    readRaw (xs ++ ' ' :: ys) = ((readRaw xs).1, (readRaw xs).2 ++ ' ' :: ys) := by
  intro xs
  induction xs with
  | nil =>
    intro ys
    rw [List.nil_append]
    simp [readRaw]
  | cons c xs ih =>
    intro ys
    rw [List.cons_append, readRaw, readRaw]
    split
    · rfl
    · rw [ih ys]

/-- `splitClose` over an appended tail, when it succeeds on the head part. -/
theorem splitClose_append : ∀ (xs ys : List Char) p, splitClose xs = some p →
    splitClose (xs ++ ys) = some (p.1, p.2 ++ ys) := by
  intro xs
  induction xs with
  | nil => intro ys p h; exact absurd h (by simp [splitClose])
  | cons c xs ih =>
    intro ys p h
    rw [splitClose] at h
    rw [List.cons_append, splitClose]
    split at h
    · obtain rfl := Option.some.inj h
      rename_i hc
      rw [if_pos hc]
    · rename_i hc
      rw [if_neg hc]
      cases hs : splitClose xs with
      | none => rw [hs] at h; exact absurd h (by simp)
      | some q =>
        rw [hs] at h
        obtain rfl := Option.some.inj h
        rw [ih ys q hs]
        rfl

/-- The lexer distributes over a space-separated concatenation whose
head part closes its brackets. -/
theorem tokenizeChars_append : ∀ (n : Nat) (a b : List Char), a.length ≤ n →
    bracketsClosed a = true →
    tokenizeChars (a ++ ' ' :: b) = tokenizeChars a ++ tokenizeChars b := by
  intro n
  induction n with
  | zero =>
    intro a b ha _
    have : a = [] := List.eq_nil_of_length_eq_zero (by omega)
    subst this
    rw [List.nil_append, tokenizeChars_space]
    rfl
  | succ m ih =>
    intro a b ha hbc
    cases a with
    | nil =>
      rw [List.nil_append, tokenizeChars_space]
      rfl
    | cons c a' =>
      simp only [List.length_cons] at ha
      rw [List.cons_append, tokenizeChars_cons, tokenizeChars_cons]
      by_cases hsp : c = ' '
      · rw [if_pos hsp, if_pos hsp]
        exact ih a' b (by omega) (bracketsClosed_tail hbc)
      · rw [if_neg hsp, if_neg hsp]
        by_cases hbr : c = '['
        · rw [if_pos hbr, if_pos hbr]
          rw [bracketsClosed, Bool.and_eq_true, if_pos hbr] at hbc
          obtain ⟨⟨q1, q2⟩, hq⟩ := splitClose_isSome a' hbc.1
          have hq2 := splitClose_append a' (' ' :: b) _ hq
          rw [hq, hq2]
          dsimp only
          obtain ⟨k, hk⟩ := splitClose_suffix a' _ hq
          have hk2 : q2 = a'.drop k := hk
          have hlen : q2.length ≤ a'.length := by
            rw [hk2]; simpa using List.length_drop_le k a'
          have hbc2 : bracketsClosed q2 = true := by
            rw [hk2]; exact bracketsClosed_drop k a' hbc.2
          rw [ih q2 b (by omega) hbc2]
          simp
        · rw [if_neg hbr, if_neg hbr]
          have hx : c :: (a' ++ ' ' :: b) = (c :: a') ++ ' ' :: b := rfl
          rw [hx, readRaw_append (c :: a') b]
          dsimp only
          have hrr : readRaw (c :: a') = (c :: (readRaw a').1, (readRaw a').2) := by
            rw [readRaw, if_neg (by tauto)]
          obtain ⟨k, hk⟩ := readRaw_suffix a'
          have hlen : (readRaw a').2.length ≤ a'.length := by
            rw [hk]; simpa using List.length_drop_le k a'
          have hlen2 : (readRaw (c :: a')).2.length ≤ a'.length := by
            rw [hrr]; exact hlen
          have hbc2 : bracketsClosed (readRaw (c :: a')).2 = true := by
            rw [hrr]
            show bracketsClosed (readRaw a').2 = true
            rw [hk]
            exact bracketsClosed_drop k a' (bracketsClosed_tail hbc)
          rw [ih (readRaw (c :: a')).2 b (by omega) hbc2]
          simp

/-- The rest run lexes to a run of rest tokens. -/
theorem tokenizeChars_rests : ∀ n : Nat,
    tokenizeChars (restsChars n) = List.replicate n (Token.rest "-") := by
  intro n
  induction n using Nat.strong_induction_on with
  | _ n ih =>
    match n with
    | 0 => rfl
    | 1 => decide
    | n + 2 =>
      rw [restsChars, tokenizeChars_cons, if_neg (by decide), if_neg (by decide)]
      have hrr : readRaw ('-' :: ' ' :: restsChars (n + 1)) =
          (['-'], ' ' :: restsChars (n + 1)) := by
        rw [readRaw, if_neg (by decide), readRaw, if_pos (Or.inl rfl)]
      rw [hrr]
      show classifyRaw "-" :: tokenizeChars (' ' :: restsChars (n + 1)) = _
      rw [tokenizeChars_space, ih (n + 1) (by omega)]
      rfl

/-- Every character of the rest run is a dash or a space. -/
theorem restsChars_mem : ∀ (n : Nat) (c : Char), c ∈ restsChars n →
    c = '-' ∨ c = ' ' := by
  intro n
  induction n using Nat.strong_induction_on with
  | _ n ih =>
    match n with
    | 0 => intro c hc; simp [restsChars] at hc
    | 1 =>
      intro c hc
      rw [restsChars] at hc
      exact Or.inl (by simpa using hc)
    | n + 2 =>
      intro c hc
      rw [restsChars] at hc
      rcases List.mem_cons.mp hc with rfl | hc2
      · exact Or.inl rfl
      · rcases List.mem_cons.mp hc2 with rfl | hc3
        · exact Or.inr rfl
        · exact ih (n + 1) (by omega) c hc3

/-- The duration sum of a rest run. -/
theorem sumDur_replicate_rest (n : Nat) :
    sumDur (List.replicate n (Token.rest "-")) = (n : Rat) := by
  induction n with
  | zero => rfl
  | succ m ih =>
    rw [List.replicate_succ, sumDur_cons, ih]
    show (1 : Rat) + m = (m + 1 : Nat)
    push_cast
    ring

/-- A run of plain spaces lexes to nothing. -/
theorem tokenizeChars_spaces : ∀ cs : List Char, (∀ c ∈ cs, c = ' ') →
    tokenizeChars cs = [] := by
  intro cs
  induction cs with
  | nil => intro _; rfl
  | cons c cs ih =>
    intro h
    rw [h c (by simp), tokenizeChars_space]
    exact ih (fun x hx => h x (by simp [hx]))

/-- Bridging the `trim` guard of `tokenize`: when the only whitespace
in `cs` is the plain space, the guard agrees with the bare lexer loop. -/
theorem tokenize_eq_chars (cs : List Char) (h : onlySpaceWs cs) :
    tokenize (String.mk cs) = tokenizeChars cs := by
  rw [tokenize]
  split
  · rename_i hall
    have : ∀ c ∈ cs, c = ' ' := by
      intro c hc
      exact h c hc (by simpa using List.all_eq_true.mp hall c hc)
    rw [tokenizeChars_spaces cs this]
  · rfl

/-- Dropping the `takeWhile` prefix is `dropWhile`. -/
theorem drop_length_takeWhile {α : Type} (p : α → Bool) : ∀ l : List α,
    l.drop (l.takeWhile p).length = l.dropWhile p := by
  intro l
  induction l with
  | nil => rfl
  | cons c cs ih =>
    rw [List.takeWhile_cons, List.dropWhile_cons]
    by_cases h : p c
    · rw [if_pos h, if_pos h, List.length_cons, List.drop_succ_cons, ih]
    · rw [if_neg h, if_neg h]
      rfl

/-- Leading whitespace is invisible to the lexer when it is spaces. -/
theorem tokenizeChars_dropWhile (cs : List Char) (h : onlySpaceWs cs) :
    tokenizeChars (cs.dropWhile Char.isWhitespace) = tokenizeChars cs := by
  induction cs with
  | nil => rfl
  | cons c cs ih =>
    rw [List.dropWhile_cons]
    by_cases hw : c.isWhitespace
    · rw [if_pos hw]
      have hc : c = ' ' := h c (by simp) hw
      subst hc
      rw [tokenizeChars_space]
      exact ih (fun x hx hwx => h x (by simp [hx]) hwx)
    · rw [if_neg hw]

/-- The characters of a space-joined list. -/
theorem joinSpace_data : ∀ (s t : String) (r : List String),
    (joinSpace (s :: t :: r)).data = s.data ++ ' ' :: (joinSpace (t :: r)).data := by
  intro s t r
  rw [joinSpace, String.data_append, String.data_append, List.append_assoc]
  have : (" " : String).data = [' '] := rfl
  rw [this]
  rfl

/-- A space-joined list of only-space-whitespace segments has
only-space whitespace. -/
theorem onlySpaceWs_joinSpace : ∀ segs : List String,
    (∀ s ∈ segs, onlySpaceWs s.data) → onlySpaceWs (joinSpace segs).data := by
  intro segs
  induction segs with
  | nil => intro _ c hc _; simp [joinSpace] at hc
  | cons s r ih =>
    intro h
    cases r with
    | nil =>
      intro c hc hw
      exact h s (by simp) c hc hw
    | cons t r2 =>
      rw [joinSpace_data]
      intro c hc hw
      rcases List.mem_append.mp hc with hc1 | hc1
      · exact h s (by simp) c hc1 hw
      · rcases List.mem_cons.mp hc1 with rfl | hc2
        · rfl
        · exact ih (fun x hx => h x (by simp [hx])) c hc2 hw

/-- The duration sum of a space-joined list of bracket-closed segments
is the sum of the segments' duration sums. -/
theorem sumDur_joinSpace : ∀ segs : List String,
    (∀ s ∈ segs, bracketsClosed s.data = true) →
    sumDur (tokenizeChars (joinSpace segs).data) =
      (segs.map (fun s => sumDur (tokenizeChars s.data))).sum := by
  intro segs
  induction segs with
  | nil => intro _; rfl
  | cons s r ih =>
    intro h
    cases r with
    | nil => simp [joinSpace]
    | cons t r2 =>
      rw [joinSpace_data,
        tokenizeChars_append s.data.length s.data (joinSpace (t :: r2)).data
          le_rfl (h s (by simp)),
        sumDur_append, ih (fun x hx => h x (by simp [hx]))]
      simp

/-- Dropping empty segments does not change the duration sum. -/
theorem sum_map_filter_ne_empty (f : String → Rat) (hf : f "" = 0) :
    ∀ l : List String, ((l.filter (fun s => s ≠ "")).map f).sum = (l.map f).sum := by
  intro l
  induction l with
  | nil => rfl
  | cons s r ih =>
    by_cases hs : s = ""
    · subst hs
      rw [List.filter_cons_of_neg (by simp), List.map_cons, List.sum_cons, hf, ih]
      ring
    · rw [List.filter_cons_of_pos (by simpa using hs), List.map_cons, List.map_cons,
        List.sum_cons, List.sum_cons, ih]

/-- `takeWhile` over a satisfying block followed by a stopper. -/
theorem takeWhile_all_append {p : Char → Bool} : ∀ (xs : List Char) (y : Char)
    (ys : List Char), (∀ c ∈ xs, p c = true) → p y = false →
    (xs ++ y :: ys).takeWhile p = xs := by
  intro xs y ys hall hy
  induction xs with
  | nil => simp [List.takeWhile_cons, hy]
  | cons c r ih =>
    rw [List.cons_append, List.takeWhile_cons, hall c (by simp),
      ih (fun x hx => hall x (by simp [hx]))]
    simp

/-- The instrument-prefix resolver on a built line `inst ++ ": " ++ c`
with a recognised all-word-char instrument name: it strips the prefix
together with any further leading whitespace of `c`. -/
theorem parseInstrumentPrefix_concat (inst c : String)
    (h1 : inst.data ≠ []) (h2 : ∀ ch ∈ inst.data, isWordChar ch = true)
    (h3 : lowerStr inst ∈ instrumentNames) :
    ∃ k, parseInstrumentPrefix (inst ++ ": " ++ c) =
      (lowerStr inst, String.mk (c.data.dropWhile Char.isWhitespace), k) := by
  have hdata : (inst ++ ": " ++ c).data = inst.data ++ ':' :: ' ' :: c.data := by
    rw [String.data_append, String.data_append, List.append_assoc]
    have h : (": " : String).data = [':', ' '] := rfl
    rw [h]
    rfl
  refine ⟨inst.data.length + 1 + ((' ' :: c.data).takeWhile Char.isWhitespace).length, ?_⟩
  simp only [parseInstrumentPrefix, hdata]
  rw [takeWhile_all_append inst.data ':' (' ' :: c.data) h2 (by decide)]
  rw [List.drop_left]
  have hmk : String.mk inst.data = inst := rfl
  rw [hmk]
  split
  · rename_i afterColon heq
    injection heq with heq1 heq2
    subst heq2
    rw [if_pos ⟨h1, h3⟩, drop_length_takeWhile]
    rw [List.dropWhile_cons, if_pos (by decide)]
  · rename_i hno
    exact absurd rfl (hno (' ' :: c.data))

/-- The final beat cursor of a line is the duration sum of its tokens. -/
theorem lineCursor_eq_sumDur (line : String) (li : Nat) :
    lineCursor line li = sumDur (tokenize (parseInstrumentPrefix line).2.1) := by
  simp only [lineCursor]
  rw [compileFrom_snd, zero_add]

/-- `Math.round` is exact on naturals. -/
theorem jsRound_natCast (n : Nat) : jsRound (n : Rat) = (n : Int) := by
  rw [jsRound, Int.floor_eq_iff]
  constructor
  · push_cast; linarith
  · push_cast; linarith

/-- A rest run generated for `n` beats occupies exactly `n` beats. -/
theorem sumDur_generateRests (n : Nat) :
    sumDur (tokenizeChars (generateRests (n : Rat)).data) = (n : Rat) := by
  rw [generateRests, jsRound_natCast]
  by_cases h : (n : Int) ≤ 0
  · rw [if_pos h]
    have hz : n = 0 := by omega
    subst hz
    rfl
  · rw [if_neg h]
    have hn : ((n : Int)).toNat = n := Int.toNat_natCast n
    rw [hn]
    show sumDur (tokenizeChars (restsChars n)) = (n : Rat)
    rw [tokenizeChars_rests, sumDur_replicate_rest]

/-- A generated rest run closes its brackets and has only-space
whitespace. -/
theorem generateRests_props (q : Rat) :
    bracketsClosed (generateRests q).data = true ∧
      onlySpaceWs (generateRests q).data := by
  rw [generateRests]
  split
  · constructor
    · rfl
    · intro c hc _
      exact absurd hc (by simp [String.data])
  · constructor
    · refine bracketsClosed_of_no_bracket _ ?_
      intro c hc
      rcases restsChars_mem _ c hc with rfl | rfl <;> decide
    · intro c hc hw
      rcases restsChars_mem _ c hc with rfl | rfl
      · exact absurd hw (by decide)
      · rfl

/-- What one segment of the builder contributes, under the amended
per-section hypotheses: a skipped (undefined) section has beat count 0,
and an emitted segment occupies exactly the section's beat count and is
well formed for concatenation. -/
theorem segOf_spec (d : ProsodyDoc) (inst : String) (i : Nat) (name : String)
    (hsec : ∀ s, recFind (parseSectionsFromAst d) name = some s →
      (∃ n : Nat, sectionBeatCount d name = (n : Rat)) ∧
      ∀ p ∈ s, ∀ pat ∈ p.2,
        sumDur (tokenizeChars pat.data) = sectionBeatCount d name ∧
        bracketsClosed pat.data = true ∧ onlySpaceWs pat.data) :
    (segOf d inst i name = none → sectionBeatCount d name = 0) ∧
    (∀ s, segOf d inst i name = some s →
      sumDur (tokenizeChars s.data) = sectionBeatCount d name ∧
      bracketsClosed s.data = true ∧ onlySpaceWs s.data) := by
  rw [segOf]
  cases hf : recFind (parseSectionsFromAst d) name with
  | none =>
    constructor
    · intro _
      rw [sectionBeatCount, hf]
    · intro s hs
      exact absurd hs (by simp)
  | some sec =>
    dsimp only
    cases hp : (recFind sec inst).bind (fun patterns => patterns[i]?) with
    | some pat =>
      constructor
      · intro h
        exact absurd h (by simp)
      · intro s2 hs2
        obtain rfl := Option.some.inj hs2
        obtain ⟨patterns, hpat1, hpat2⟩ := Option.bind_eq_some.mp hp
        rw [recFind] at hpat1
        obtain ⟨pr, hfind, hsnd⟩ := Option.map_eq_some'.mp hpat1
        have hmem : pr ∈ sec := List.mem_of_find?_eq_some hfind
        have hpm : pat ∈ patterns := by
          obtain ⟨hlt, heq⟩ := List.getElem?_eq_some.mp hpat2
          rw [← heq]
          exact List.getElem_mem hlt
        exact (hsec sec hf).2 pr hmem pat (by rw [hsnd]; exact hpm)
    | none =>
      constructor
      · intro h
        exact absurd h (by simp)
      · intro s2 hs2
        obtain rfl := Option.some.inj hs2
        obtain ⟨n, hn⟩ := (hsec sec hf).1
        rw [hn]
        exact ⟨sumDur_generateRests n, (generateRests_props _).1,
          (generateRests_props _).2⟩

/-- Summing the built segments over a section-name list: the duration
sums add up to the sum of the sections' beat counts, and every segment
is well formed. -/
theorem segments_sum (d : ProsodyDoc) (inst : String) (i : Nat) :
    ∀ names : List String,
    (∀ name ∈ names, ∀ s, recFind (parseSectionsFromAst d) name = some s →
      (∃ n : Nat, sectionBeatCount d name = (n : Rat)) ∧
      ∀ p ∈ s, ∀ pat ∈ p.2,
        sumDur (tokenizeChars pat.data) = sectionBeatCount d name ∧
        bracketsClosed pat.data = true ∧ onlySpaceWs pat.data) →
    ((names.filterMap (segOf d inst i)).map
        (fun s => sumDur (tokenizeChars s.data))).sum =
      (names.map (fun name => sectionBeatCount d name)).sum ∧
    ∀ s ∈ names.filterMap (segOf d inst i),
      bracketsClosed s.data = true ∧ onlySpaceWs s.data := by
  intro names
  induction names with
  | nil =>
    intro _
    exact ⟨rfl, by intro s hs; simp at hs⟩
  | cons nm rest ih =>
    intro h
    have hspec := segOf_spec d inst i nm (h nm (by simp))
    obtain ⟨ih1, ih2⟩ := ih (fun x hx => h x (by simp [hx]))
    cases hseg : segOf d inst i nm with
    | none =>
      rw [List.filterMap_cons_none hseg]
      refine ⟨?_, ih2⟩
      rw [ih1, List.map_cons, List.sum_cons, hspec.1 hseg, zero_add]
    | some sgm =>
      rw [List.filterMap_cons_some hseg]
      have hv := hspec.2 sgm hseg
      constructor
      · rw [List.map_cons, List.sum_cons, List.map_cons, List.sum_cons, ih1, hv.1]
      · intro s hs
        rcases List.mem_cons.mp hs with rfl | hs2
        · exact ⟨hv.2.1, hv.2.2⟩
        · exact ih2 s hs2

/-- A whitespace-free character list trivially has only-space whitespace. -/
theorem onlySpaceWs_of_no_ws (cs : List Char)
    (h : cs.all (fun c => !c.isWhitespace) = true) : onlySpaceWs cs := by
  intro c hc hw
  have h2 := List.all_eq_true.mp h c hc
  rw [Bool.not_eq_true'] at h2
  rw [h2] at hw
  exact absurd hw (by simp)

/-- C2 (amended): for every structured document, provided each section's
defined patterns each individually occupy exactly that section's
computed beat count (with only-space whitespace and closed chord
brackets), each section beat count is a whole number of beats, and the
instrument name is a recognised all-word-character instrument, every
emitted instrument sub-line's final beat cursor equals the sum of the
computed beat counts over the expanded song order — absent patterns are
padded with rest runs so all sub-lines stay beat-aligned. -/
theorem claim2_beat_alignment (d : ProsodyDoc) (inst : String) (i : Nat)
    (hmem : inst ∈ allInstruments d) (hi : i < numLinesFor d inst)
    (h1 : inst.data ≠ []) (h2 : ∀ ch ∈ inst.data, isWordChar ch = true)
    (h3 : lowerStr inst ∈ instrumentNames)
    (hsec : ∀ name ∈ sectionNames d, ∀ s,
      recFind (parseSectionsFromAst d) name = some s →
      (∃ n : Nat, sectionBeatCount d name = (n : Rat)) ∧
      ∀ p ∈ s, ∀ pat ∈ p.2,
        sumDur (tokenizeChars pat.data) = sectionBeatCount d name ∧
        bracketsClosed pat.data = true ∧ onlySpaceWs pat.data) :
    lineCursor (emittedLine d inst i) 0 = totalBeats d := by
  obtain ⟨hsum, hprops⟩ := segments_sum d inst i (sectionNames d) hsec
  have hprops2 : ∀ s ∈ (segmentsFor d inst i).filter (fun s => s ≠ ""),
      bracketsClosed s.data = true ∧ onlySpaceWs s.data := by
    intro s hs
    exact hprops s (List.mem_of_mem_filter hs)
  obtain ⟨k, hp⟩ := parseInstrumentPrefix_concat inst
    (joinSpace ((segmentsFor d inst i).filter (fun s => s ≠ ""))) h1 h2 h3
  rw [emittedLine, lineCursor_eq_sumDur, hp]
  dsimp only
  have hosw : onlySpaceWs
      (joinSpace ((segmentsFor d inst i).filter (fun s => s ≠ ""))).data :=
    onlySpaceWs_joinSpace _ (fun s hs => (hprops2 s hs).2)
  have hd : onlySpaceWs
      ((joinSpace ((segmentsFor d inst i).filter
        (fun s => s ≠ ""))).data.dropWhile Char.isWhitespace) := by
    intro csub hcsub hw
    exact hosw csub ((List.dropWhile_sublist _).subset hcsub) hw
  rw [tokenize_eq_chars _ hd, tokenizeChars_dropWhile _ hosw,
    sumDur_joinSpace _ (fun s hs => (hprops2 s hs).1),
    sum_map_filter_ne_empty _ rfl, segmentsFor, hsum, totalBeats]

/-- The document of the C2 counterexample: one section whose two
patterns have different beat lengths. -/
def mixedDoc : ProsodyDoc :=
  ⟨[], [("verse", [("piano", "C4 C4"), ("bass", "C2")])], ["verse"]⟩

/-- C2 counterexample: the expander appends a present pattern as-is,
without padding it to the section's computed beat count, so the `bass`
sub-line of `mixedDoc` ends at beat 1 while the `piano` sub-line ends
at beat 2 — the emitted sub-lines are not beat-aligned, refuting the
universally quantified alignment claim. -/
theorem claim2_counterexample :
    "piano" ∈ allInstruments mixedDoc ∧ "bass" ∈ allInstruments mixedDoc ∧
    0 < numLinesFor mixedDoc "piano" ∧ 0 < numLinesFor mixedDoc "bass" ∧
    emittedLine mixedDoc "piano" 0 = "piano: C4 C4" ∧
    emittedLine mixedDoc "bass" 0 = "bass: C2" ∧
    lineCursor (emittedLine mixedDoc "piano" 0) 0 = 2 ∧
    lineCursor (emittedLine mixedDoc "bass" 0) 0 = 1 := by
  have he1 : emittedLine mixedDoc "piano" 0 = "piano: C4 C4" := by decide
  have he2 : emittedLine mixedDoc "bass" 0 = "bass: C2" := by decide
  have hp1 : parseInstrumentPrefix "piano: C4 C4" = ("piano", "C4 C4", 7) := by
    decide
  have hp2 : parseInstrumentPrefix "bass: C2" = ("bass", "C2", 6) := by decide
  have ht1 : tokenize "C4 C4" =
      [Token.note ⟨"C4", "C4", "C", 4, false, false, false⟩,
       Token.note ⟨"C4", "C4", "C", 4, false, false, false⟩] := by decide
  have ht2 : tokenize "C2" =
      [Token.note ⟨"C2", "C2", "C", 2, false, false, false⟩] := by decide
  refine ⟨by decide, by decide, by decide, by decide, he1, he2, ?_, ?_⟩
  · rw [he1, lineCursor_eq_sumDur, hp1]
    dsimp only
    rw [ht1]
    norm_num [sumDur, tokenDur, noteDur]
  · rw [he2, lineCursor_eq_sumDur, hp2]
    dsimp only
    rw [ht2]
    norm_num [sumDur, tokenDur, noteDur]

/-- The document of the C2 witness: one section, both patterns one beat
long, song order repeating it twice. -/
def alignedDoc : ProsodyDoc :=
  ⟨[], [("verse", [("piano", "C4"), ("kick", "x")])], ["verse", "verse"]⟩

/-- C2 witness: the amended alignment theorem discharged on
`alignedDoc`, whose emitted piano sub-line spans exactly the 2 beats of
the two section instances. -/
theorem claim2_witness :
    lineCursor (emittedLine alignedDoc "piano" 0) 0 = totalBeats alignedDoc := by
  have hbeat : sectionBeatCount alignedDoc "verse" = 1 := by
    have hl : parseLine ("piano" ++ ": " ++ "C4") 0 =
        ⟨[Token.note ⟨"C4", "C4", "C", 4, false, false, false⟩],
          [⟨["C4"], 0, 1, 0, 0, false, "piano"⟩], "piano", 7⟩ := by
      have hp : parseInstrumentPrefix "piano: C4" = ("piano", "C4", 7) := by decide
      have ht : tokenize "C4" =
          [Token.note ⟨"C4", "C4", "C", 4, false, false, false⟩] := by decide
      show parseLine "piano: C4" 0 = _
      simp only [parseLine, hp, ht]
      norm_num [compileFrom, compileFuel, foldTies, noteDur]
    have hk : parseLine ("kick" ++ ": " ++ "x") 0 =
        ⟨[Token.hit "x"], [⟨["C4"], 0, 1, 0, 0, false, "kick"⟩], "kick", 6⟩ := by
      have hp : parseInstrumentPrefix "kick: x" = ("kick", "x", 6) := by decide
      have ht : tokenize "x" = [Token.hit "x"] := by decide
      show parseLine "kick: x" 0 = _
      simp only [parseLine, hp, ht]
      norm_num [compileFrom, compileFuel, foldTies]
    have hfind : recFind (parseSectionsFromAst alignedDoc) "verse" =
        some [("piano", ["C4"]), ("kick", ["x"])] := by decide
    rw [sectionBeatCount, hfind]
    show getSectionBeats [("piano", ["C4"]), ("kick", ["x"])] = 1
    rw [getSectionBeats]
    simp only [List.foldl_cons, List.foldl_nil, hl, hk]
    norm_num [lineLen]
  have hsum1 : sumDur (tokenizeChars ("C4" : String).data) = 1 := by
    have ht : tokenizeChars ("C4" : String).data =
        [Token.note ⟨"C4", "C4", "C", 4, false, false, false⟩] := by decide
    rw [ht]
    norm_num [sumDur, tokenDur, noteDur]
  have hsum2 : sumDur (tokenizeChars ("x" : String).data) = 1 := by
    have ht : tokenizeChars ("x" : String).data = [Token.hit "x"] := by decide
    rw [ht]
    norm_num [sumDur, tokenDur]
  refine claim2_beat_alignment alignedDoc "piano" 0 (by decide) (by decide)
    (by decide) (by decide) (by decide) ?_
  intro name hname s hfind
  have hname2 : name = "verse" := by
    have : sectionNames alignedDoc = ["verse", "verse"] := by decide
    rw [this] at hname
    rcases List.mem_cons.mp hname with rfl | h2
    · rfl
    · rcases List.mem_cons.mp h2 with rfl | h3
      · rfl
      · exact absurd h3 (by simp)
  subst hname2
  have hfind2 : recFind (parseSectionsFromAst alignedDoc) "verse" =
      some [("piano", ["C4"]), ("kick", ["x"])] := by decide
  rw [hfind2] at hfind
  obtain rfl := Option.some.inj hfind
  refine ⟨⟨1, by rw [hbeat]; norm_num⟩, ?_⟩
  intro p hp pat hpat
  rw [hbeat]
  rcases List.mem_cons.mp hp with rfl | hp2
  · rcases List.mem_cons.mp hpat with rfl | h
    · exact ⟨hsum1, by decide, onlySpaceWs_of_no_ws _ (by decide)⟩
    · exact absurd h (by simp)
  · rcases List.mem_cons.mp hp2 with rfl | h
    · rcases List.mem_cons.mp hpat with rfl | h
      · exact ⟨hsum2, by decide, onlySpaceWs_of_no_ws _ (by decide)⟩
      · exact absurd h (by simp)
    · exact absurd h (by simp)

/-- C7: `tryParseYaml` is a total function — it never raises — and
returns `none` exactly when the detection regex finds no recognised
top-level key at a line start or the structured parse (the abstracted
YAML library plus the object check) failed; otherwise it returns the
expansion of the parsed document. -/
theorem claim7_yaml_fallback (input : String) (parsed : Option ProsodyDoc) :
    (tryParseYaml input parsed = none ↔
      isYamlFormat input = false ∨ parsed = none) ∧
    (∀ d, parsed = some d → isYamlFormat input = true →
      tryParseYaml input parsed = some (parseYamlSongText d)) := by
  constructor
  · rw [tryParseYaml]
    cases hb : isYamlFormat input with
    | false =>
      rw [if_neg (by simp)]
      exact ⟨fun _ => Or.inl rfl, fun _ => rfl⟩
    | true =>
      rw [if_pos rfl, Option.map_eq_none']
      constructor
      · exact fun hp => Or.inr hp
      · intro hor
        rcases hor with h1 | h1
        · exact absurd h1 (by simp)
        · exact h1
  · intro d hd hf
    rw [tryParseYaml, if_pos hf, hd]
    rfl

/-- C7 witness: the fallback theorem discharged at a concrete YAML-like
input and parsed document. -/
theorem claim7_witness :
    isYamlFormat "sections:\n  verse:\n    piano: C4" = true ∧
    tryParseYaml "sections:\n  verse:\n    piano: C4"
        (some ⟨[], [("verse", [("piano", "C4")])], []⟩) =
      some (parseYamlSongText ⟨[], [("verse", [("piano", "C4")])], []⟩) :=
  ⟨by decide, (claim7_yaml_fallback "sections:\n  verse:\n    piano: C4"
    (some ⟨[], [("verse", [("piano", "C4")])], []⟩)).2 _ rfl (by decide)⟩

end Prosody
